import Mathlib

/-!
Shallow embedding of the versioned content-resource store
(repository transactional protocol + service error translation).

Modelling conventions:
* table rows are Lean structures; the whole storage state is `Store.DB`
  (four row lists plus a fresh-id counter modelling `crypto.randomUUID()`
  freshness and a monotone clock modelling `new Date()`);
* JSON payloads (`content`, `fields`) are treated as opaque strings;
* `db.transaction` is modelled by running the body and, on any thrown
  error, returning the caller's original state (rollback);
* storage failures are injectable: every primitive *write* statement is
  numbered within its transaction and `failAt = some k` makes the k-th
  write raise, which lets the mid-transaction failure scenarios be stated;
* the composite primary key of `content_resource_tags` is modelled as a
  duplicate-key check on link insertion; id-column primary keys are fed
  only by `crypto.randomUUID()` in this code, whose collisions are not
  modelled (ids are drawn from the fresh counter).
-/

namespace Store

/-- Opaque JSON payload. -/
abbrev Json := String

/-- Workflow state enumeration from the schema's `state` column. -/
inductive WorkflowState where
  | draft | in_review | approved | published | archived
deriving DecidableEq, Repr

/-- A row of `content_resources`. -/
structure Resource where
  id : Nat
  tipe : String
  createdById : String
  fields : Option Json
  currentVersionId : Option Nat
  state : WorkflowState
  createdAt : Nat
  updatedAt : Nat
  deletedAt : Option Nat
deriving DecidableEq, Repr

/-- A row of `content_versions`. -/
structure Version where
  id : Nat
  resourceId : Nat
  content : Json
  createdAt : Nat
  createdById : String
deriving DecidableEq, Repr

/-- A row of `tags`. -/
structure Tag where
  id : Nat
  label : String
  createdAt : Nat
deriving DecidableEq, Repr

/-- A row of `content_resource_tags` (composite PK (resourceId, tagId)). -/
structure Link where
  resourceId : Nat
  tagId : Nat
  createdAt : Nat
deriving DecidableEq, Repr

/-- The whole storage state, plus the id/clock generators. -/
structure DB where
  resources : List Resource
  versions : List Version
  tags : List Tag
  links : List Link
  nextId : Nat
  clock : Nat
deriving DecidableEq, Repr

def DB.empty : DB := ⟨[], [], [], [], 0, 0⟩

/-- `crypto.randomUUID()`: a fresh identifier. -/
def DB.genId (db : DB) : Nat × DB :=
  (db.nextId, { db with nextId := db.nextId + 1 })

/-- `new Date()`: the current time; the clock then advances. -/
def DB.tick (db : DB) : Nat × DB :=
  (db.clock, { db with clock := db.clock + 1 })

/-- Errors a storage statement can raise. -/
inductive DbError where
  /-- `throw new Error('Resource not found')` inside `update`. -/
  | notFound
  /-- violation of the (resourceId, tagId) composite primary key. -/
  | pkViolation
  /-- an injected storage failure (connection loss etc.). -/
  | injected
deriving DecidableEq, Repr

def DB.insertResource (db : DB) (r : Resource) : DB :=
  { db with resources := db.resources ++ [r] }

def DB.insertVersion (db : DB) (v : Version) : DB :=
  { db with versions := db.versions ++ [v] }

def DB.insertTag (db : DB) (t : Tag) : DB :=
  { db with tags := db.tags ++ [t] }

/-- Insert into `content_resource_tags`; the composite primary key
(resourceId, tagId) rejects a duplicate pair. -/
def DB.insertLink (db : DB) (l : Link) : Except DbError DB :=
  if db.links.any (fun l0 => l0.resourceId == l.resourceId && l0.tagId == l.tagId) then
    .error .pkViolation
  else
    .ok { db with links := db.links ++ [l] }

/-- `UPDATE content_resources SET ... WHERE id = id`. -/
def DB.updateResourceRow (db : DB) (id : Nat) (f : Resource → Resource) : DB :=
  { db with resources := db.resources.map (fun r => if r.id = id then f r else r) }

/-- `DELETE FROM content_resource_tags WHERE resource_id = id`. -/
def DB.deleteLinksFor (db : DB) (id : Nat) : DB :=
  { db with links := db.links.filter (fun l => l.resourceId != id) }

/-- The denormalized shape produced by the repository's find queries:
the resource row `with` its current version and its link rows, each
joined to its tag row. -/
structure ResourceView where
  resource : Resource
  currentVersion : Option Version
  tags : List (Link × Tag)
deriving DecidableEq, Repr

/-- The denormalized read used by `findById` / `findByType`. -/
def DB.viewOf (db : DB) (r : Resource) : ResourceView :=
  { resource := r
    currentVersion := r.currentVersionId.bind (fun vid => db.versions.find? (fun v => v.id == vid))
    tags := (db.links.filter (fun l => l.resourceId == r.id)).filterMap
      (fun l => (db.tags.find? (fun t => t.id == l.tagId)).map (fun t => (l, t))) }

/-- `findById`: first resource row with this id and `deleted_at IS NULL`,
denormalized. -/
def DB.findById (db : DB) (id : Nat) : Option ResourceView :=
  (db.resources.find? (fun r => r.id == id && r.deletedAt.isNone)).map db.viewOf

/-- `findByType`: all non-deleted resources of the type, denormalized. -/
def DB.findByType (db : DB) (tipe : String) : List ResourceView :=
  (db.resources.filter (fun r => r.tipe == tipe && r.deletedAt.isNone)).map db.viewOf

/-- Insertion step for ordering versions by `created_at` ascending. -/
def insertByCreatedAt (v : Version) : List Version → List Version
  | [] => [v]
  | w :: ws => if v.createdAt ≤ w.createdAt then v :: w :: ws else w :: insertByCreatedAt v ws

/-- `ORDER BY created_at` ascending. -/
def sortByCreatedAt : List Version → List Version
  | [] => []
  | v :: vs => insertByCreatedAt v (sortByCreatedAt vs)

/-- A write statement with failure injection: `failAt = some n` makes the
n-th write statement of the transaction raise a storage failure. -/
def wstep (failAt : Option Nat) (n : Nat) (x : Except DbError DB) : Except DbError DB :=
  if failAt = some n then .error .injected else x

/-- `CreateContentResourceInput` (the `type` field is spelled `tipe`,
`type` being reserved in Lean). -/
structure CreateContentResourceInput where
  tipe : String
  createdById : String
  fields : Option Json
  content : Json
  tags : Option (List String)
deriving DecidableEq, Repr

/-- `UpdateContentResourceInput`; note the source type declares `state?`
even though `update` never reads it. -/
structure UpdateContentResourceInput where
  fields : Option Json
  content : Option Json
  tags : Option (List String)
  state : Option WorkflowState
deriving DecidableEq, Repr

namespace ContentResourceRepository

/-- One iteration of the `addTags` loop: find the tag by label, else insert
a new one; then insert the (resource, tag) link.  `n` is the index of the
transaction's next write statement (link/tag inserts count as writes). -/
def addTag1 (failAt : Option Nat) (n : Nat) (resourceId : Nat) (label : String) (db : DB) :
    Except DbError (Nat × DB) :=
  match db.tags.find? (fun t => t.label == label) with
  | some tag =>
    let (lt, db1) := db.tick
    (wstep failAt n (db1.insertLink { resourceId := resourceId, tagId := tag.id, createdAt := lt })).map
      (fun d => (n + 1, d))
  | none =>
    let (tid, db1) := db.genId
    let (tt, db2) := db1.tick
    match wstep failAt n (.ok (db2.insertTag { id := tid, label := label, createdAt := tt })) with
    | .error e => .error e
    | .ok db3 =>
      let (lt, db4) := db3.tick
      (wstep failAt (n + 1) (db4.insertLink { resourceId := resourceId, tagId := tid, createdAt := lt })).map
        (fun d => (n + 2, d))

/-- The `addTags` loop over the label list. -/
def addTags (failAt : Option Nat) (n : Nat) (resourceId : Nat) :
    List String → DB → Except DbError (Nat × DB)
  | [], db => .ok (n, db)
  | label :: rest, db =>
    match addTag1 failAt n resourceId label db with
    | .error e => .error e
    | .ok (n1, db1) => addTags failAt n1 resourceId rest db1

/-- The body of `create`'s transaction: insert the resource row, insert the
initial version, repoint `current_version_id`, then add tags when given.
Returns the `resource` constant captured at the first insert. -/
def createBody (failAt : Option Nat) (input : CreateContentResourceInput) (db0 : DB) :
    Except DbError (Resource × DB) :=
  let (rid, db1) := db0.genId
  let (t1, db2) := db1.tick
  let r : Resource :=
    { id := rid, tipe := input.tipe, createdById := input.createdById,
      fields := input.fields, currentVersionId := none, state := .draft,
      createdAt := t1, updatedAt := t1, deletedAt := none }
  match wstep failAt 0 (.ok (db2.insertResource r)) with
  | .error e => .error e
  | .ok db3 =>
    let (vid, db4) := db3.genId
    let (t2, db5) := db4.tick
    let v : Version :=
      { id := vid, resourceId := rid, content := input.content,
        createdAt := t2, createdById := input.createdById }
    match wstep failAt 1 (.ok (db5.insertVersion v)) with
    | .error e => .error e
    | .ok db6 =>
      match wstep failAt 2 (.ok (db6.updateResourceRow rid
          (fun r0 => { r0 with currentVersionId := some vid }))) with
      | .error e => .error e
      | .ok db7 =>
        match input.tags with
        | some ls =>
          if ls.isEmpty then .ok (r, db7)
          else (addTags failAt 3 rid ls db7).map (fun p => (r, p.2))
        | none => .ok (r, db7)

/-- `create` with failure injection: the body runs inside one transaction,
so a raised error rolls the storage back to the caller's state. -/
def createAt (failAt : Option Nat) (input : CreateContentResourceInput) (db : DB) :
    Except DbError Resource × DB :=
  match createBody failAt input db with
  | .ok (r, db') => (.ok r, db')
  | .error e => (.error e, db)

/-- `create` (no injected failure). -/
def create (input : CreateContentResourceInput) (db : DB) : Except DbError Resource × DB :=
  createAt none input db

/-- The `if (input.fields)` branch of `update`. -/
def updFields (failAt : Option Nat) (n : Nat) (id : Nat) (fields : Option Json) (db : DB) :
    Except DbError (Nat × DB) :=
  match fields with
  | some f =>
    let (t, db1) := db.tick
    (wstep failAt n (.ok (db1.updateResourceRow id
      (fun r => { r with fields := some f, updatedAt := t })))).map (fun d => (n + 1, d))
  | none => .ok (n, db)

/-- The `if (input.content)` branch of `update`: insert a new version then
repoint `current_version_id` and bump `updated_at`. -/
def updContent (failAt : Option Nat) (n : Nat) (id : Nat) (content : Option Json)
    (updatedById : String) (db : DB) : Except DbError (Nat × DB) :=
  match content with
  | some c =>
    let (vid, db1) := db.genId
    let (t2, db2) := db1.tick
    let v : Version :=
      { id := vid, resourceId := id, content := c, createdAt := t2, createdById := updatedById }
    match wstep failAt n (.ok (db2.insertVersion v)) with
    | .error e => .error e
    | .ok db3 =>
      let (t3, db4) := db3.tick
      (wstep failAt (n + 1) (.ok (db4.updateResourceRow id
        (fun r => { r with currentVersionId := some vid, updatedAt := t3 })))).map
        (fun d => (n + 2, d))
  | none => .ok (n, db)

/-- The `if (input.tags)` branch of `update`: delete every link of the
resource, then re-insert links for the given labels.  (A present-but-empty
list is truthy in the source, so it deletes and re-adds nothing.) -/
def updTags (failAt : Option Nat) (n : Nat) (id : Nat) (tags : Option (List String)) (db : DB) :
    Except DbError DB :=
  match tags with
  | some ls =>
    match wstep failAt n (.ok (db.deleteLinksFor id)) with
    | .error e => .error e
    | .ok db1 => (addTags failAt (n + 1) id ls db1).map (fun p => p.2)
  | none => .ok db

/-- The body of `update`'s transaction: re-check existence, then the three
independent optional branches, then the denormalized re-read.  The `state`
field of the input is never consulted, exactly as in the source. -/
def updateBody (failAt : Option Nat) (id : Nat) (input : UpdateContentResourceInput)
    (updatedById : String) (db0 : DB) : Except DbError (Option ResourceView × DB) :=
  match db0.findById id with
  | none => .error .notFound
  | some _ =>
    match updFields failAt 0 id input.fields db0 with
    | .error e => .error e
    | .ok (n1, db1) =>
      match updContent failAt n1 id input.content updatedById db1 with
      | .error e => .error e
      | .ok (n2, db2) =>
        match updTags failAt n2 id input.tags db2 with
        | .error e => .error e
        | .ok db3 => .ok (db3.findById id, db3)

/-- `update` with failure injection; one transaction, rollback on error. -/
def updateAt (failAt : Option Nat) (id : Nat) (input : UpdateContentResourceInput)
    (updatedById : String) (db : DB) : Except DbError (Option ResourceView) × DB :=
  match updateBody failAt id input updatedById db with
  | .ok (v, db') => (.ok v, db')
  | .error e => (.error e, db)

/-- `update` (no injected failure). -/
def update (id : Nat) (input : UpdateContentResourceInput) (updatedById : String) (db : DB) :
    Except DbError (Option ResourceView) × DB :=
  updateAt none id input updatedById db

/-- `softDelete`: a single UPDATE setting `deleted_at` and `updated_at`
(no deleted-filter in its WHERE clause, so it also re-stamps an already
deleted row). -/
def softDelete (id : Nat) (db : DB) : DB :=
  let (t, db1) := db.tick
  db1.updateResourceRow id (fun r => { r with deletedAt := some t, updatedAt := t })

/-- `getVersionHistory`: the resource's versions ordered by `created_at`
ascending. -/
def getVersionHistory (id : Nat) (db : DB) : List Version :=
  sortByCreatedAt (db.versions.filter (fun v => v.resourceId == id))

/-- `findById` / `findByType` as repository methods (pure reads). -/
def findById (id : Nat) (db : DB) : Option ResourceView := db.findById id

def findByType (tipe : String) (db : DB) : List ResourceView := db.findByType tipe

end ContentResourceRepository

/-- The closed service error taxonomy. -/
inductive ErrorCode where
  | INVALID_INPUT | NOT_FOUND | SYSTEM_ERROR
deriving DecidableEq, Repr

/-- What a Service caller can receive on failure: either a
`ContentResourceError` (code + message) or a raw storage error that was
allowed to propagate unwrapped. -/
inductive ServiceError where
  | cre (code : ErrorCode) (message : String)
  | raw (e : DbError)
deriving DecidableEq, Repr

/-- A repository call outcome as seen at the service boundary: the value,
or a thrown storage error. -/
abbrev RepoOutcome (α : Type) := Except DbError α

/-- `!s?.trim()` falsiness: the string trims to empty, i.e. every
character is whitespace. -/
def trimEmpty (s : String) : Bool := s.data.all Char.isWhitespace

namespace ContentResourceService

/-- `CreateInputSchema.parse`: `type` and `createdById` must be non-empty
strings; `fields`/`content`/`tags` are structurally unconstrained here. -/
def createInputValid (input : CreateContentResourceInput) : Bool :=
  !input.tipe.isEmpty && !input.createdById.isEmpty

/-- `UpdateInputSchema.parse`: the schema keeps only `fields`, `content`
and `tags` (a `state` key is stripped), then requires at least one key. -/
def updateInputValid (input : UpdateContentResourceInput) : Bool :=
  input.fields.isSome || input.content.isSome || input.tags.isSome

/-- `createResource`: validate, call the repository, wrap any non-Zod
failure as SYSTEM_ERROR. -/
def createResource (input : CreateContentResourceInput)
    (repoCreate : RepoOutcome Resource) : Except ServiceError Resource :=
  if !createInputValid input then
    .error (.cre .INVALID_INPUT "Invalid resource data")
  else
    match repoCreate with
    | .ok r => .ok r
    | .error _ => .error (.cre .SYSTEM_ERROR "Failed to create resource")

/-- `getResource`: id guard, then `findById`.  There is no try/catch, so a
storage failure of `findById` propagates raw. -/
def getResource (id : String) (repoFind : RepoOutcome (Option ResourceView)) :
    Except ServiceError ResourceView :=
  if trimEmpty id then
    .error (.cre .INVALID_INPUT "Invalid resource ID")
  else
    match repoFind with
    | .error e => .error (.raw e)
    | .ok none => .error (.cre .NOT_FOUND "Resource not found")
    | .ok (some r) => .ok r

/-- `getResourcesByType`: type guard, then `findByType`, also without a
try/catch. -/
def getResourcesByType (tipe : String) (repoFind : RepoOutcome (List ResourceView)) :
    Except ServiceError (List ResourceView) :=
  if trimEmpty tipe then
    .error (.cre .INVALID_INPUT "Invalid resource type")
  else
    match repoFind with
    | .error e => .error (.raw e)
    | .ok l => .ok l

/-- `updateResource`: id and updater guards, schema, existence pre-check,
then the repository update; inside the try, a thrown `ContentResourceError`
passes through and anything else becomes SYSTEM_ERROR. -/
def updateResource (id : String) (input : UpdateContentResourceInput) (updatedById : String)
    (repoFind : RepoOutcome (Option ResourceView))
    (repoUpdate : RepoOutcome (Option ResourceView)) :
    Except ServiceError (Option ResourceView) :=
  if trimEmpty id then
    .error (.cre .INVALID_INPUT "Invalid resource ID")
  else if trimEmpty updatedById then
    .error (.cre .INVALID_INPUT "Invalid updater ID")
  else if !updateInputValid input then
    .error (.cre .INVALID_INPUT "Invalid update data")
  else
    match repoFind with
    | .error _ => .error (.cre .SYSTEM_ERROR "Failed to update resource")
    | .ok none => .error (.cre .NOT_FOUND "Resource not found")
    | .ok (some _) =>
      match repoUpdate with
      | .error _ => .error (.cre .SYSTEM_ERROR "Failed to update resource")
      | .ok u => .ok u

/-- `deleteResource`: id guard, existence pre-check, soft delete; wraps
storage failures as SYSTEM_ERROR. -/
def deleteResource (id : String) (repoFind : RepoOutcome (Option ResourceView))
    (repoDelete : RepoOutcome Unit) : Except ServiceError Unit :=
  if trimEmpty id then
    .error (.cre .INVALID_INPUT "Invalid resource ID")
  else
    match repoFind with
    | .error _ => .error (.cre .SYSTEM_ERROR "Failed to delete resource")
    | .ok none => .error (.cre .NOT_FOUND "Resource not found")
    | .ok (some _) =>
      match repoDelete with
      | .error _ => .error (.cre .SYSTEM_ERROR "Failed to delete resource")
      | .ok _ => .ok ()

/-- `getVersionHistory`: id guard, existence pre-check, history; wraps
storage failures as SYSTEM_ERROR. -/
def getVersionHistory (id : String) (repoFind : RepoOutcome (Option ResourceView))
    (repoHistory : RepoOutcome (List Version)) : Except ServiceError (List Version) :=
  if trimEmpty id then
    .error (.cre .INVALID_INPUT "Invalid resource ID")
  else
    match repoFind with
    | .error _ => .error (.cre .SYSTEM_ERROR "Failed to get version history")
    | .ok none => .error (.cre .NOT_FOUND "Resource not found")
    | .ok (some _) =>
      match repoHistory with
      | .error _ => .error (.cre .SYSTEM_ERROR "Failed to get version history")
      | .ok h => .ok h

end ContentResourceService

/-! ## Derived accessors and storage invariants -/

/-- The version rows belonging to a resource, in insertion order. -/
def versionsOf (db : DB) (rid : Nat) : List Version :=
  db.versions.filter (fun v => v.resourceId == rid)

/-- The link rows of a resource. -/
def linksFor (db : DB) (rid : Nat) : List Link :=
  db.links.filter (fun l => l.resourceId == rid)

/-- The tag rows carrying a label. -/
def tagsWithLabel (db : DB) (lab : String) : List Tag :=
  db.tags.filter (fun t => t.label == lab)

/-- `rid` is already linked (through some link row) to a tag labelled
`lab`. -/
def seenLabel (db : DB) (rid : Nat) (lab : String) : Prop :=
  ∃ l ∈ db.links, l.resourceId = rid ∧ ∃ t ∈ db.tags, t.id = l.tagId ∧ t.label = lab

/-- The storage invariant maintained by the repository: id freshness and
uniqueness per table, label uniqueness of tags (which holds in this
sequential model), the composite primary key of the link table, foreign
key bounds, clock consistency of version timestamps, and the
current-version pointer property. -/
def Inv (db : DB) : Prop :=
  (db.resources.map Resource.id).Nodup ∧
  (∀ r ∈ db.resources, r.id < db.nextId) ∧
  (db.versions.map Version.id).Nodup ∧
  (∀ v ∈ db.versions, v.id < db.nextId) ∧
  (∀ v ∈ db.versions, v.resourceId < db.nextId) ∧
  (∀ v ∈ db.versions, v.createdAt < db.clock) ∧
  db.versions.Pairwise (fun a b => a.createdAt < b.createdAt) ∧
  (db.tags.map Tag.id).Nodup ∧
  (∀ t ∈ db.tags, t.id < db.nextId) ∧
  (db.tags.map Tag.label).Nodup ∧
  (db.links.map (fun l => (l.resourceId, l.tagId))).Nodup ∧
  (∀ l ∈ db.links, l.resourceId < db.nextId ∧ l.tagId < db.nextId) ∧
  (∀ r ∈ db.resources, r.deletedAt = none → (∃ v ∈ db.versions, v.resourceId = r.id) →
    ∃ cv, r.currentVersionId = some cv ∧ ∃ v ∈ db.versions, v.id = cv ∧ v.resourceId = r.id)

/-- States reachable from an empty store by any sequence of repository
operations, including runs with injected storage failures (which roll
back). -/
inductive Reachable : DB → Prop where
  | init : Reachable DB.empty
  | create (failAt : Option Nat) (input : CreateContentResourceInput) (db : DB) :
      Reachable db → Reachable (ContentResourceRepository.createAt failAt input db).2
  | update (failAt : Option Nat) (id : Nat) (input : UpdateContentResourceInput)
      (uid : String) (db : DB) :
      Reachable db → Reachable (ContentResourceRepository.updateAt failAt id input uid db).2
  | softDelete (id : Nat) (db : DB) :
      Reachable db → Reachable (ContentResourceRepository.softDelete id db)

/-- Driver for a sequence of updates to one resource; stops at the first
failure. -/
def applyUpdates (id : Nat) (uid : String) :
    List UpdateContentResourceInput → DB → Except DbError DB
  | [], db => .ok db
  | u :: us, db =>
    match ContentResourceRepository.update id u uid db with
    | (.ok _, db') => applyUpdates id uid us db'
    | (.error e, _) => .error e

/-- Whether an `Except` result is a success. -/
def isOk {ε α : Type} : Except ε α → Bool
  | .ok _ => true
  | .error _ => false

/-- The service result contains no unwrapped storage error. -/
def noRawError {α : Type} : Except ServiceError α → Bool
  | .error (.raw _) => false
  | _ => true

/-! ## Generic helper lemmas -/

theorem wstep_none (n : Nat) (x : Except DbError DB) : wstep none n x = x := by
  simp [wstep]

theorem except_map_ok {ε α β : Type} (f : α → β) (x : Except ε α) (b : β)
    (h : x.map f = .ok b) : ∃ a, x = .ok a ∧ f a = b := by
  cases x with
  | ok a => exact ⟨a, rfl, by simpa [Except.map] using h⟩
  | error e => simp [Except.map] at h

theorem find?_append_of_none {α : Type} (p : α → Bool) (l₁ l₂ : List α)
    (h : ∀ x ∈ l₁, ¬ p x = true) : (l₁ ++ l₂).find? p = l₂.find? p := by
  induction l₁ with
  | nil => rfl
  | cons x xs ih =>
    have hx : p x = false := by
      have := h x (by simp)
      simp_all
    simp only [List.cons_append, List.find?, hx]
    exact ih (fun y hy => h y (by simp [hy]))

theorem filter_eq_singleton_of_nodup_map {α β : Type} [BEq β] [LawfulBEq β] (f : α → β)
    (l : List α) (hnd : (l.map f).Nodup) (a : α) (ha : a ∈ l) :
    l.filter (fun x => f x == f a) = [a] := by
  induction l with
  | nil => simp at ha
  | cons x xs ih =>
    have hnd' : (xs.map f).Nodup := (List.nodup_cons.mp (by simpa using hnd)).2
    have hx : f x ∉ xs.map f := (List.nodup_cons.mp (by simpa using hnd)).1
    rcases List.mem_cons.mp ha with rfl | hmem
    · have hnone : xs.filter (fun y => f y == f a) = [] := by
        refine List.filter_eq_nil_iff.mpr (fun y hy hpy => ?_)
        exact hx (by
          have : f y = f a := by simpa using hpy
          exact this ▸ List.mem_map_of_mem f hy)
      simp [List.filter, hnone]
    · have hne : (f x == f a) = false := by
        by_contra hcon
        have hfx : f x = f a := by
          cases hb : (f x == f a) with
          | false => exact absurd hb hcon
          | true => exact eq_of_beq hb
        exact hx (hfx ▸ List.mem_map_of_mem f hmem)
      simp only [List.filter, hne]
      exact ih hnd' hmem

theorem find?_eq_of_nodup_map {α β : Type} [BEq β] [LawfulBEq β] (f : α → β)
    (l : List α) (hnd : (l.map f).Nodup) (a : α) (ha : a ∈ l) :
    l.find? (fun x => f x == f a) = some a := by
  induction l with
  | nil => simp at ha
  | cons x xs ih =>
    have hnd' : (xs.map f).Nodup := (List.nodup_cons.mp (by simpa using hnd)).2
    have hx : f x ∉ xs.map f := (List.nodup_cons.mp (by simpa using hnd)).1
    rcases List.mem_cons.mp ha with rfl | hmem
    · simp [List.find?]
    · have hne : (f x == f a) = false := by
        by_contra hcon
        have hfx : f x = f a := by
          cases hb : (f x == f a) with
          | false => exact absurd hb hcon
          | true => exact eq_of_beq hb
        exact hx (hfx ▸ List.mem_map_of_mem f hmem)
      simp only [List.find?, hne]
      exact ih hnd' hmem

theorem forall2_mem_right {α β : Type} {P : α → β → Prop} {as : List α} {bs : List β}
    (h : List.Forall₂ P as bs) (b : β) (hb : b ∈ bs) : ∃ a ∈ as, P a b := by
  induction h with
  | nil => simp at hb
  | cons hab _ ih =>
    rcases List.mem_cons.mp hb with rfl | hb'
    · exact ⟨_, by simp, hab⟩
    · rcases ih hb' with ⟨a, hamem, hp⟩
      exact ⟨a, by simp [hamem], hp⟩

theorem forall2_filter_count {α β : Type} {P : α → β → Prop} {as : List α} {bs : List β}
    (h : List.Forall₂ P as bs) (q : β → Bool) (c : α → Bool)
    (hq : ∀ a b, P a b → q b = c a) :
    (bs.filter q).length = (as.filter c).length := by
  induction h with
  | nil => rfl
  | cons hab htail ih =>
    rename_i a b as' bs'
    by_cases hc : c a = true
    · simp [List.filter, hq a b hab, hc, ih]
    · have hc' : c a = false := by simpa using hc
      simp [List.filter, hq a b hab, hc', ih]

/-! ## Tag-loop characterization -/

/-- The part of the storage invariant that the tag loop needs and
maintains. -/
structure TagCtx (db : DB) : Prop where
  tagIds : (db.tags.map Tag.id).Nodup
  tagBound : ∀ t ∈ db.tags, t.id < db.nextId
  tagLabels : (db.tags.map Tag.label).Nodup
  linkKeys : (db.links.map (fun l => (l.resourceId, l.tagId))).Nodup
  linkTagBound : ∀ l ∈ db.links, l.tagId < db.nextId

/-- One successful tag-loop iteration: if the resource is not yet linked
to a tag of this label, the iteration succeeds and appends exactly one
link (and at most one tag row). -/
theorem addTag1_ok (n rid : Nat) (label : String) (db : DB)
    (hctx : TagCtx db) (hns : ¬ seenLabel db rid label) :
    ∃ n1 db1, ContentResourceRepository.addTag1 none n rid label db = .ok (n1, db1) ∧
      db1.resources = db.resources ∧ db1.versions = db.versions ∧
      db.nextId ≤ db1.nextId ∧ db.clock ≤ db1.clock ∧
      (∃ ts, db1.tags = db.tags ++ ts ∧ ∀ t ∈ ts, t.label = label ∧ db.nextId ≤ t.id) ∧
      (∃ nl, db1.links = db.links ++ [nl] ∧ nl.resourceId = rid ∧
        ∃ t ∈ db1.tags, t.id = nl.tagId ∧ t.label = label) ∧
      TagCtx db1 ∧
      (∀ lab, seenLabel db1 rid lab ↔ (seenLabel db rid lab ∨ lab = label)) := by
  cases hfind : db.tags.find? (fun t => t.label == label) with
  | some tag =>
    have htmem : tag ∈ db.tags := List.mem_of_find?_eq_some hfind
    have htlab : tag.label = label := by
      have := List.find?_some hfind
      simpa using this
    have hany : (db.links.any (fun l0 => l0.resourceId == rid && l0.tagId == tag.id)) = false := by
      rw [List.any_eq_false]
      intro l0 hl0 hp
      simp only [Bool.and_eq_true, beq_iff_eq] at hp
      exact hns ⟨l0, hl0, hp.1, tag, htmem, hp.2.symm, htlab⟩
    have hrun : ContentResourceRepository.addTag1 none n rid label db =
        .ok (n + 1, { db with
          clock := db.clock + 1,
          links := db.links ++ [{ resourceId := rid, tagId := tag.id, createdAt := db.clock }] }) := by
      simp [ContentResourceRepository.addTag1, hfind, DB.tick, wstep_none, DB.insertLink,
        hany, Except.map]
    refine ⟨n + 1, _, hrun, rfl, rfl, le_refl _, by simp, ⟨[], by simp, by simp⟩,
        ⟨{ resourceId := rid, tagId := tag.id, createdAt := db.clock }, rfl, rfl,
          tag, htmem, rfl, htlab⟩, ?_, ?_⟩
    · refine ⟨hctx.tagIds, hctx.tagBound, hctx.tagLabels, ?_, ?_⟩
      · simp only [List.map_append, List.map_cons, List.map_nil]
        rw [List.nodup_append]
        refine ⟨hctx.linkKeys, by simp, ?_⟩
        intro p hp
        simp only [List.mem_singleton]
        intro hpeq
        rcases List.mem_map.mp hp with ⟨l0, hl0, hl0eq⟩
        rw [List.any_eq_false] at hany
        refine hany l0 hl0 ?_
        have h1 : l0.resourceId = rid := by
          have := congrArg Prod.fst (hl0eq.trans hpeq); simpa using this
        have h2 : l0.tagId = tag.id := by
          have := congrArg Prod.snd (hl0eq.trans hpeq); simpa using this
        simp [h1, h2]
      · intro l hl
        rcases List.mem_append.mp hl with hl' | hl'
        · exact hctx.linkTagBound l hl'
        · simp only [List.mem_singleton] at hl'
          subst hl'
          exact hctx.tagBound tag htmem
    · intro lab
      constructor
      · rintro ⟨l, hl, hlrid, t, htm, htid, hlab⟩
        simp only at htm
        rcases List.mem_append.mp hl with hl' | hl'
        · exact Or.inl ⟨l, hl', hlrid, t, htm, htid, hlab⟩
        · simp only [List.mem_singleton] at hl'
          subst hl'
          have : t = tag := List.inj_on_of_nodup_map hctx.tagIds htm htmem (by simpa using htid)
          right
          rw [← hlab, this, htlab]
      · rintro (⟨l, hl, hlrid, t, htm, htid, hlab⟩ | rfl)
        · exact ⟨l, by simp [hl], hlrid, t, htm, htid, hlab⟩
        · exact ⟨⟨rid, tag.id, db.clock⟩, by simp, rfl, tag, by simp [htmem], rfl, htlab⟩
  | none =>
    have hno : ∀ t ∈ db.tags, t.label ≠ label := by
      intro t ht
      have := List.find?_eq_none.mp hfind t ht
      simpa using this
    have hany : ((db.links).any
        (fun l0 => l0.resourceId == rid && l0.tagId == db.nextId)) = false := by
      rw [List.any_eq_false]
      intro l0 hl0 hp
      have := hctx.linkTagBound l0 hl0
      simp only [Bool.and_eq_true, beq_iff_eq] at hp
      omega
    have hrun : ContentResourceRepository.addTag1 none n rid label db =
        .ok (n + 2, { db with
          nextId := db.nextId + 1,
          clock := db.clock + 2,
          tags := db.tags ++ [{ id := db.nextId, label := label, createdAt := db.clock }],
          links := db.links ++ [{ resourceId := rid, tagId := db.nextId, createdAt := db.clock + 1 }] }) := by
      simp [ContentResourceRepository.addTag1, hfind, DB.genId, DB.tick, wstep_none,
        DB.insertTag, DB.insertLink, hany, Except.map]
    refine ⟨n + 2, _, hrun, rfl, rfl, by simp, by simp,
        ⟨[{ id := db.nextId, label := label, createdAt := db.clock }], rfl, by simp⟩,
        ⟨{ resourceId := rid, tagId := db.nextId, createdAt := db.clock + 1 }, rfl, rfl,
          { id := db.nextId, label := label, createdAt := db.clock }, by simp, rfl, rfl⟩, ?_, ?_⟩
    · refine ⟨?_, ?_, ?_, ?_, ?_⟩
      · simp only [List.map_append, List.map_cons, List.map_nil]
        rw [List.nodup_append]
        refine ⟨hctx.tagIds, by simp, ?_⟩
        intro i hi
        simp only [List.mem_singleton]
        intro hieq
        rcases List.mem_map.mp hi with ⟨t0, ht0, ht0eq⟩
        have := hctx.tagBound t0 ht0
        omega
      · intro t ht
        rcases List.mem_append.mp ht with ht' | ht'
        · have := hctx.tagBound t ht'
          show t.id < db.nextId + 1
          omega
        · simp only [List.mem_singleton] at ht'; subst ht'; simp
      · simp only [List.map_append, List.map_cons, List.map_nil]
        rw [List.nodup_append]
        refine ⟨hctx.tagLabels, by simp, ?_⟩
        intro lab0 hlab0
        simp only [List.mem_singleton]
        intro hlabeq
        rcases List.mem_map.mp hlab0 with ⟨t0, ht0, ht0eq⟩
        exact hno t0 ht0 (ht0eq.trans hlabeq)
      · simp only [List.map_append, List.map_cons, List.map_nil]
        rw [List.nodup_append]
        refine ⟨hctx.linkKeys, by simp, ?_⟩
        intro p hp
        simp only [List.mem_singleton]
        intro hpeq
        rcases List.mem_map.mp hp with ⟨l0, hl0, hl0eq⟩
        have := hctx.linkTagBound l0 hl0
        have h2 : l0.tagId = db.nextId := by
          have := congrArg Prod.snd (hl0eq.trans hpeq); simpa using this
        omega
      · intro l hl
        rcases List.mem_append.mp hl with hl' | hl'
        · have := hctx.linkTagBound l hl'
          show l.tagId < db.nextId + 1
          omega
        · simp only [List.mem_singleton] at hl'; subst hl'; simp
    · intro lab
      constructor
      · rintro ⟨l, hl, hlrid, t, htm, htid, hlab⟩
        simp only at htm hl
        rcases List.mem_append.mp hl with hl' | hl'
        · rcases List.mem_append.mp htm with htm' | htm'
          · exact Or.inl ⟨l, hl', hlrid, t, htm', htid, hlab⟩
          · simp only [List.mem_singleton] at htm'
            subst htm'
            have := hctx.linkTagBound l hl'
            simp only at htid
            omega
        · simp only [List.mem_singleton] at hl'
          subst hl'
          rcases List.mem_append.mp htm with htm' | htm'
          · have := hctx.tagBound t htm'
            simp only at htid
            omega
          · simp only [List.mem_singleton] at htm'
            subst htm'
            exact Or.inr hlab.symm
      · rintro (⟨l, hl, hlrid, t, htm, htid, hlab⟩ | rfl)
        · exact ⟨l, by simp [hl], hlrid, t, by simp [htm], htid, hlab⟩
        · exact ⟨⟨rid, db.nextId, db.clock + 1⟩, by simp, rfl,
            ⟨db.nextId, lab, db.clock⟩, by simp, rfl, rfl⟩

/-- A tag-loop iteration for a label the resource is already linked to
hits the composite primary key of the link table. -/
theorem addTag1_seen_fails (n rid : Nat) (label : String) (db : DB)
    (hlabels : (db.tags.map Tag.label).Nodup)
    (hs : seenLabel db rid label) :
    ContentResourceRepository.addTag1 none n rid label db = .error .pkViolation := by
  obtain ⟨l, hl, hlrid, t, htm, htid, hlab⟩ := hs
  cases hfind : db.tags.find? (fun x => x.label == label) with
  | none =>
    exact absurd (by simpa using List.find?_eq_none.mp hfind t htm) (by simp [hlab])
  | some tag =>
    have htagmem := List.mem_of_find?_eq_some hfind
    have htaglab : tag.label = label := by simpa using List.find?_some hfind
    have hteq : t = tag := List.inj_on_of_nodup_map hlabels htm htagmem (by rw [hlab, htaglab])
    have hany : (db.links.any (fun l0 => l0.resourceId == rid && l0.tagId == tag.id)) = true := by
      rw [List.any_eq_true]
      refine ⟨l, hl, ?_⟩
      simp [hlrid, ← htid, hteq]
    simp [ContentResourceRepository.addTag1, hfind, DB.tick, wstep_none, DB.insertLink, hany,
      Except.map]

/-- Structural inversion of one successful tag-loop iteration, for an
arbitrary failure schedule. -/
theorem addTag1_ok_inv (failAt : Option Nat) (n rid : Nat) (label : String) (db : DB)
    (n1 : Nat) (db1 : DB)
    (h : ContentResourceRepository.addTag1 failAt n rid label db = .ok (n1, db1)) :
    db1.resources = db.resources ∧ db1.versions = db.versions ∧
    db.nextId ≤ db1.nextId ∧ db.clock ≤ db1.clock ∧
    (∃ ts, db1.tags = db.tags ++ ts ∧ ts.length ≤ 1 ∧
      ∀ t ∈ ts, db.nextId ≤ t.id ∧ t.id < db1.nextId ∧ ∀ t0 ∈ db.tags, t0.label ≠ t.label) ∧
    (∃ nl, db1.links = db.links ++ [nl] ∧ nl.resourceId = rid ∧
      (∃ t ∈ db1.tags, t.id = nl.tagId) ∧
      ∀ l0 ∈ db.links, ¬(l0.resourceId = nl.resourceId ∧ l0.tagId = nl.tagId)) := by
  cases hfind : db.tags.find? (fun x => x.label == label) with
  | some tag =>
    have htagmem := List.mem_of_find?_eq_some hfind
    simp only [ContentResourceRepository.addTag1, hfind, DB.tick, DB.insertLink, wstep] at h
    split at h
    · exact absurd h (by simp [Except.map])
    · split at h
      · exact absurd h (by simp [Except.map])
      · rename_i hany
        simp only [Except.map, Except.ok.injEq, Prod.mk.injEq] at h
        obtain ⟨-, hdb⟩ := h
        subst hdb
        rw [Bool.not_eq_true, List.any_eq_false] at hany
        refine ⟨rfl, rfl, le_refl _, by simp, ⟨[], by simp, by simp, by simp⟩,
          ⟨⟨rid, tag.id, db.clock⟩, rfl, rfl, ⟨tag, htagmem, rfl⟩, ?_⟩⟩
        intro l0 hl0 hcon
        exact hany l0 hl0 (by simp [hcon.1, hcon.2])
  | none =>
    have hno : ∀ t0 ∈ db.tags, t0.label ≠ label := by
      intro t0 ht0
      simpa using List.find?_eq_none.mp hfind t0 ht0
    simp only [ContentResourceRepository.addTag1, hfind, DB.genId, DB.tick, DB.insertTag,
      DB.insertLink, wstep] at h
    split at h
    · exact absurd h (by simp)
    · rename_i db3 heq
      split at heq
      · exact absurd heq (by simp)
      · rw [Except.ok.injEq] at heq
        subst heq
        split at h
        · exact absurd h (by simp [Except.map])
        · split at h
          · exact absurd h (by simp [Except.map])
          · rename_i hany
            rw [Bool.not_eq_true, List.any_eq_false] at hany
            simp only [Except.map, Except.ok.injEq, Prod.mk.injEq] at h
            obtain ⟨-, hdb⟩ := h
            subst hdb
            refine ⟨rfl, rfl, by show db.nextId ≤ db.nextId + 1; omega,
              by show db.clock ≤ db.clock + 1 + 1; omega,
              ⟨[⟨db.nextId, label, db.clock⟩], rfl, by simp, ?_⟩,
              ⟨⟨rid, db.nextId, db.clock + 1⟩, rfl, rfl,
                ⟨⟨db.nextId, label, db.clock⟩, by simp, rfl⟩, ?_⟩⟩
            · intro t ht
              simp only [List.mem_singleton] at ht
              subst ht
              exact ⟨le_refl _, by simp, hno⟩
            · intro l0 hl0 hcon
              exact hany l0 hl0 (by simp [hcon.1, hcon.2])

/-- `TagCtx` is preserved by one successful tag-loop iteration. -/
theorem addTag1_ok_ctx (failAt : Option Nat) (n rid : Nat) (label : String) (db : DB)
    (n1 : Nat) (db1 : DB)
    (h : ContentResourceRepository.addTag1 failAt n rid label db = .ok (n1, db1))
    (hctx : TagCtx db) : TagCtx db1 := by
  obtain ⟨-, -, hnext, -, ⟨ts, htags, htlen, hts⟩, ⟨nl, hlinks, -, ⟨t, htmem, htid⟩, hnew⟩⟩ :=
    addTag1_ok_inv failAt n rid label db n1 db1 h
  have htsnd : (ts.map Tag.id).Nodup := by
    match ts, htlen with
    | [], _ => simp
    | [t0], _ => simp
  have htbound1 : ∀ x ∈ db1.tags, x.id < db1.nextId := by
    rw [htags]
    intro x hx
    rcases List.mem_append.mp hx with hx' | hx'
    · exact lt_of_lt_of_le (hctx.tagBound x hx') hnext
    · exact (hts x hx').2.1
  refine ⟨?_, htbound1, ?_, ?_, ?_⟩
  · rw [htags, List.map_append, List.nodup_append]
    refine ⟨hctx.tagIds, htsnd, ?_⟩
    intro i hi
    rcases List.mem_map.mp hi with ⟨t0, ht0, rfl⟩
    intro hi2
    rcases List.mem_map.mp hi2 with ⟨t1, ht1, he⟩
    have h1 := hctx.tagBound t0 ht0
    have h2 := (hts t1 ht1).1
    omega
  · rw [htags, List.map_append, List.nodup_append]
    refine ⟨hctx.tagLabels, ?_, ?_⟩
    · match ts, htlen with
      | [], _ => simp
      | [t0], _ => simp
    · intro lb hlb
      rcases List.mem_map.mp hlb with ⟨t0, ht0, rfl⟩
      intro hlb2
      rcases List.mem_map.mp hlb2 with ⟨t1, ht1, he⟩
      exact (hts t1 ht1).2.2 t0 ht0 he.symm
  · rw [hlinks, List.map_append, List.nodup_append]
    refine ⟨hctx.linkKeys, by simp, ?_⟩
    intro p hp
    rcases List.mem_map.mp hp with ⟨l0, hl0, rfl⟩
    simp only [List.map_cons, List.map_nil, List.mem_singleton]
    intro hpeq
    refine hnew l0 hl0 ?_
    exact ⟨congrArg Prod.fst hpeq, congrArg Prod.snd hpeq⟩
  · rw [hlinks]
    intro l0 hl0
    rcases List.mem_append.mp hl0 with hl' | hl'
    · exact lt_of_lt_of_le (hctx.linkTagBound l0 hl') hnext
    · simp only [List.mem_singleton] at hl'
      subst hl'
      rw [← htid]
      exact htbound1 t htmem

/-- Structural inversion of a successful tag loop, for an arbitrary
failure schedule. -/
theorem addTags_ok_inv (failAt : Option Nat) (labels : List String) (n rid : Nat) (db : DB)
    (n' : Nat) (db' : DB)
    (h : ContentResourceRepository.addTags failAt n rid labels db = .ok (n', db')) :
    db'.resources = db.resources ∧ db'.versions = db.versions ∧
    db.nextId ≤ db'.nextId ∧ db.clock ≤ db'.clock ∧
    (∃ ts, db'.tags = db.tags ++ ts) ∧
    (∃ ls, db'.links = db.links ++ ls ∧ ∀ l ∈ ls, l.resourceId = rid) := by
  induction labels generalizing n db with
  | nil =>
    simp only [ContentResourceRepository.addTags, Except.ok.injEq, Prod.mk.injEq] at h
    obtain ⟨-, rfl⟩ := h
    exact ⟨rfl, rfl, le_refl _, le_refl _, ⟨[], by simp⟩, ⟨[], by simp, by simp⟩⟩
  | cons lab rest ih =>
    simp only [ContentResourceRepository.addTags] at h
    split at h
    · cases h
    · rename_i n1 db1 heq
      obtain ⟨hres, hver, hnext, hclock, ⟨ts, htags, -⟩, ⟨nl, hlinks, hnlrid, -, -⟩⟩ :=
        addTag1_ok_inv failAt n rid lab db n1 db1 heq
      obtain ⟨hres', hver', hnext', hclock', ⟨ts', htags'⟩, ⟨ls', hlinks', hls'⟩⟩ := ih n1 db1 h
      refine ⟨hres'.trans hres, hver'.trans hver, le_trans hnext hnext',
        le_trans hclock hclock', ⟨ts ++ ts', by rw [htags', htags, List.append_assoc]⟩,
        ⟨nl :: ls', by rw [hlinks', hlinks]; simp, ?_⟩⟩
      intro l hl
      rcases List.mem_cons.mp hl with rfl | hl'
      · exact hnlrid
      · exact hls' l hl'

/-- `TagCtx` is preserved by a successful tag loop. -/
theorem addTags_ok_ctx (failAt : Option Nat) (labels : List String) (n rid : Nat) (db : DB)
    (n' : Nat) (db' : DB)
    (h : ContentResourceRepository.addTags failAt n rid labels db = .ok (n', db'))
    (hctx : TagCtx db) : TagCtx db' := by
  induction labels generalizing n db with
  | nil =>
    simp only [ContentResourceRepository.addTags, Except.ok.injEq, Prod.mk.injEq] at h
    obtain ⟨-, rfl⟩ := h
    exact hctx
  | cons lab rest ih =>
    simp only [ContentResourceRepository.addTags] at h
    split at h
    · cases h
    · rename_i n1 db1 heq
      exact ih n1 db1 h (addTag1_ok_ctx failAt n rid lab db n1 db1 heq hctx)

/-- A tag loop over pairwise-distinct labels, none of which the resource
is linked to yet, succeeds and appends exactly one link per label (in
label order), creating tag rows only for labels that had none. -/
theorem addTags_ok (labels : List String) (n rid : Nat) (db : DB)
    (hctx : TagCtx db) (hnd : labels.Nodup)
    (hfresh : ∀ lab ∈ labels, ¬ seenLabel db rid lab) :
    ∃ n' db', ContentResourceRepository.addTags none n rid labels db = .ok (n', db') ∧
      db'.resources = db.resources ∧ db'.versions = db.versions ∧
      db.nextId ≤ db'.nextId ∧ db.clock ≤ db'.clock ∧
      (∃ ts, db'.tags = db.tags ++ ts ∧ ∀ t ∈ ts, t.label ∈ labels ∧ db.nextId ≤ t.id) ∧
      (∃ ls, db'.links = db.links ++ ls ∧
        List.Forall₂ (fun lab l => l.resourceId = rid ∧
          ∃ t ∈ db'.tags, t.id = l.tagId ∧ t.label = lab) labels ls) ∧
      TagCtx db' := by
  induction labels generalizing n db with
  | nil =>
    exact ⟨n, db, rfl, rfl, rfl, le_refl _, le_refl _, ⟨[], by simp, by simp⟩,
      ⟨[], by simp, List.Forall₂.nil⟩, hctx⟩
  | cons lab rest ih =>
    obtain ⟨hlabmem, hndrest⟩ := List.nodup_cons.mp hnd
    obtain ⟨n1, db1, h1, hres1, hver1, hnext1, hclock1, ⟨ts1, htags1, hts1⟩,
      ⟨nl, hlinks1, hnlrid, t1, ht1mem, ht1id, ht1lab⟩, hctx1, hiff⟩ :=
      addTag1_ok n rid lab db hctx (hfresh lab (by simp))
    have hfresh1 : ∀ lb ∈ rest, ¬ seenLabel db1 rid lb := by
      intro lb hlb hcon
      rcases (hiff lb).mp hcon with hold | rfl
      · exact hfresh lb (by simp [hlb]) hold
      · exact hlabmem hlb
    obtain ⟨n', db', h2, hres2, hver2, hnext2, hclock2, ⟨ts2, htags2, hts2⟩,
      ⟨ls2, hlinks2, hfa2⟩, hctx2⟩ := ih n1 db1 hctx1 hndrest hfresh1
    refine ⟨n', db', ?_, hres2.trans hres1, hver2.trans hver1,
      le_trans hnext1 hnext2, le_trans hclock1 hclock2,
      ⟨ts1 ++ ts2, by rw [htags2, htags1, List.append_assoc], ?_⟩,
      ⟨nl :: ls2, by rw [hlinks2, hlinks1]; simp, ?_⟩, hctx2⟩
    · simp only [ContentResourceRepository.addTags, h1, h2]
    · intro t ht
      rcases List.mem_append.mp ht with ht' | ht'
      · exact ⟨by simp [(hts1 t ht').1], (hts1 t ht').2⟩
      · exact ⟨by simp [(hts2 t ht').1], le_trans hnext1 (hts2 t ht').2⟩
    · refine List.Forall₂.cons ⟨hnlrid, t1, ?_, ht1id, ht1lab⟩ hfa2
      rw [htags2]
      exact List.mem_append_left _ ht1mem

/-- A tag loop that revisits a label (a duplicate in the list, or a label
the resource is already linked to) dies on the link table's composite
primary key. -/
theorem addTags_fails (labels : List String) (n rid : Nat) (db : DB)
    (hctx : TagCtx db)
    (hbad : ¬ labels.Nodup ∨ ∃ lab ∈ labels, seenLabel db rid lab) :
    ContentResourceRepository.addTags none n rid labels db = .error .pkViolation := by
  induction labels generalizing n db with
  | nil =>
    rcases hbad with hnd | ⟨lab, hmem, -⟩
    · exact absurd List.nodup_nil hnd
    · simp at hmem
  | cons lab rest ih =>
    by_cases hseen : seenLabel db rid lab
    · have h1 := addTag1_seen_fails n rid lab db hctx.tagLabels hseen
      simp [ContentResourceRepository.addTags, h1]
    · obtain ⟨n1, db1, h1, -, -, -, -, -, -, hctx1, hiff⟩ :=
        addTag1_ok n rid lab db hctx hseen
      have hrec : ContentResourceRepository.addTags none n1 rid rest db1 =
          .error .pkViolation := by
        refine ih n1 db1 hctx1 ?_
        rcases hbad with hnd | ⟨lab', hmem, hseen'⟩
        · rw [List.nodup_cons] at hnd
          by_cases hmem : lab ∈ rest
          · exact Or.inr ⟨lab, hmem, (hiff lab).mpr (Or.inr rfl)⟩
          · exact Or.inl (fun hcon => hnd ⟨hmem, hcon⟩)
        · rcases List.mem_cons.mp hmem with rfl | hmem'
          · exact absurd hseen' hseen
          · exact Or.inr ⟨lab', hmem', (hiff lab').mpr (Or.inl hseen')⟩
      simp [ContentResourceRepository.addTags, h1, hrec]

/-! ## Create / update transaction characterization -/

/-- The resource row as `create` inserts it (and returns it): the
current-version pointer is still null here. -/
def createdRow (input : CreateContentResourceInput) (db : DB) : Resource :=
  { id := db.nextId, tipe := input.tipe, createdById := input.createdById,
    fields := input.fields, currentVersionId := none, state := .draft,
    createdAt := db.clock, updatedAt := db.clock, deletedAt := none }

/-- The initial version row `create` inserts. -/
def createdVersion (input : CreateContentResourceInput) (db : DB) : Version :=
  { id := db.nextId + 1, resourceId := db.nextId, content := input.content,
    createdAt := db.clock + 1, createdById := input.createdById }

/-- The state after `create`'s three fixed writes (resource insert,
version insert, pointer update), before the tag loop. -/
def createMid (input : CreateContentResourceInput) (db : DB) : DB :=
  { db with
    resources := (db.resources ++ [createdRow input db]).map
      (fun x => if x.id = db.nextId then { x with currentVersionId := some (db.nextId + 1) } else x),
    versions := db.versions ++ [createdVersion input db],
    nextId := db.nextId + 2,
    clock := db.clock + 2 }

theorem map_rowUpdate_id (rs : List Resource) (rid : Nat) (g : Resource → Resource)
    (hg : ∀ x, (g x).id = x.id) :
    (rs.map (fun r => if r.id = rid then g r else r)).map Resource.id = rs.map Resource.id := by
  rw [List.map_map]
  apply List.map_congr_left
  intro r _
  by_cases h : r.id = rid <;> simp [h, hg]

theorem map_rowUpdate_self (rs : List Resource) (rid : Nat) (g : Resource → Resource)
    (h : ∀ r ∈ rs, r.id ≠ rid) :
    rs.map (fun r => if r.id = rid then g r else r) = rs := by
  have : rs.map (fun r => if r.id = rid then g r else r) = rs.map (fun r => r) := by
    apply List.map_congr_left
    intro r hr
    simp [h r hr]
  rw [this]
  simp

theorem createMid_resources (input : CreateContentResourceInput) (db : DB)
    (hb : ∀ r ∈ db.resources, r.id < db.nextId) :
    (createMid input db).resources = db.resources ++
      [{ createdRow input db with currentVersionId := some (db.nextId + 1) }] := by
  show ((db.resources ++ [createdRow input db]).map
      (fun x => if x.id = db.nextId then { x with currentVersionId := some (db.nextId + 1) } else x)) = _
  rw [List.map_append, map_rowUpdate_self db.resources db.nextId _
    (fun r hr => Nat.ne_of_lt (hb r hr))]
  simp [createdRow]

/-- Inversion of a successful `create` transaction body: the returned row
is the initial insert (null pointer), and the final state is the tag loop
run from the three-write mid state. -/
theorem createBody_ok_inv (failAt : Option Nat) (input : CreateContentResourceInput)
    (db : DB) (r : Resource) (db' : DB)
    (h : ContentResourceRepository.createBody failAt input db = .ok (r, db')) :
    r = createdRow input db ∧
    ∃ n', ContentResourceRepository.addTags failAt 3 db.nextId (input.tags.getD [])
      (createMid input db) = .ok (n', db') := by
  simp only [ContentResourceRepository.createBody, DB.genId, DB.tick, DB.insertResource,
    DB.insertVersion, DB.updateResourceRow, wstep] at h
  split at h
  · cases h
  · rename_i db3 heq1
    split at heq1
    · cases heq1
    · rw [Except.ok.injEq] at heq1
      subst heq1
      split at h
      · cases h
      · rename_i db6 heq2
        split at heq2
        · cases heq2
        · rw [Except.ok.injEq] at heq2
          subst heq2
          split at h
          · cases h
          · rename_i db7 heq3
            split at heq3
            · cases heq3
            · rw [Except.ok.injEq] at heq3
              subst heq3
              split at h
              · rename_i ls hls
                split at h
                · rename_i hempty
                  rw [Except.ok.injEq, Prod.mk.injEq] at h
                  obtain ⟨rfl, rfl⟩ := h
                  have : ls = [] := List.isEmpty_iff.mp hempty
                  subst this
                  refine ⟨rfl, 3, ?_⟩
                  simp only [hls, Option.getD_some, ContentResourceRepository.addTags]
                  rfl
                · obtain ⟨⟨n', dbX⟩, hrun, hpair⟩ := except_map_ok _ _ _ h
                  rw [Prod.mk.injEq] at hpair
                  obtain ⟨rfl, rfl⟩ := hpair
                  refine ⟨rfl, n', ?_⟩
                  simp only [hls, Option.getD_some]
                  exact hrun
              · rename_i hls
                rw [Except.ok.injEq, Prod.mk.injEq] at h
                obtain ⟨rfl, rfl⟩ := h
                refine ⟨rfl, 3, ?_⟩
                simp only [hls, Option.getD_none, ContentResourceRepository.addTags]
                rfl

/-- The storage invariant is preserved by a successful tag loop on an
existing resource id. -/
theorem addTags_Inv (failAt : Option Nat) (labels : List String) (n rid : Nat) (db : DB)
    (n' : Nat) (db' : DB)
    (h : ContentResourceRepository.addTags failAt n rid labels db = .ok (n', db'))
    (hI : Inv db) (hrid : rid < db.nextId) : Inv db' := by
  obtain ⟨h1, h2, h3, h4, h5, h6, h7, h8, h9, h10, h11, h12, h13⟩ := hI
  obtain ⟨hres, hver, hnext, hclock, ⟨ts, htags⟩, ⟨ls, hlinks, hls⟩⟩ :=
    addTags_ok_inv failAt labels n rid db n' db' h
  have hctx' : TagCtx db' := addTags_ok_ctx failAt labels n rid db n' db' h
    ⟨h8, h9, h10, h11, fun l hl => (h12 l hl).2⟩
  refine ⟨?_, ?_, ?_, ?_, ?_, ?_, ?_, hctx'.tagIds, hctx'.tagBound, hctx'.tagLabels,
    hctx'.linkKeys, ?_, ?_⟩
  · rw [hres]; exact h1
  · rw [hres]; intro r hr; exact lt_of_lt_of_le (h2 r hr) hnext
  · rw [hver]; exact h3
  · rw [hver]; intro v hv; exact lt_of_lt_of_le (h4 v hv) hnext
  · rw [hver]; intro v hv; exact lt_of_lt_of_le (h5 v hv) hnext
  · rw [hver]; intro v hv; exact lt_of_lt_of_le (h6 v hv) hclock
  · rw [hver]; exact h7
  · intro l hl
    refine ⟨?_, hctx'.linkTagBound l hl⟩
    rw [hlinks] at hl
    rcases List.mem_append.mp hl with hl' | hl'
    · exact lt_of_lt_of_le (h12 l hl').1 hnext
    · rw [hls l hl']; exact lt_of_lt_of_le hrid hnext
  · rw [hres, hver]; exact h13

/-- The storage invariant is preserved by `create`'s three fixed writes. -/
theorem createMid_Inv (input : CreateContentResourceInput) (db : DB) (hI : Inv db) :
    Inv (createMid input db) := by
  obtain ⟨h1, h2, h3, h4, h5, h6, h7, h8, h9, h10, h11, h12, h13⟩ := hI
  have hres := createMid_resources input db h2
  have hrsetid : ({ createdRow input db with
      currentVersionId := some (db.nextId + 1) } : Resource).id = db.nextId := rfl
  refine ⟨?_, ?_, ?_, ?_, ?_, ?_, ?_, ?_, ?_, ?_, ?_, ?_, ?_⟩
  · rw [hres, List.map_append, List.nodup_append]
    refine ⟨h1, by simp, ?_⟩
    intro i hi
    rcases List.mem_map.mp hi with ⟨r0, hr0, rfl⟩
    simp only [List.map_cons, List.map_nil, List.mem_singleton, createdRow]
    intro hcon
    have := h2 r0 hr0
    omega
  · rw [hres]
    intro r hr
    show r.id < db.nextId + 2
    rcases List.mem_append.mp hr with hr' | hr'
    · have := h2 r hr'; omega
    · simp only [List.mem_singleton] at hr'
      subst hr'
      rw [hrsetid]
      omega
  · show ((db.versions ++ [createdVersion input db]).map Version.id).Nodup
    rw [List.map_append, List.nodup_append]
    refine ⟨h3, by simp, ?_⟩
    intro i hi
    rcases List.mem_map.mp hi with ⟨v0, hv0, rfl⟩
    simp only [List.map_cons, List.map_nil, List.mem_singleton, createdVersion]
    intro hcon
    have := h4 v0 hv0
    omega
  · intro v hv
    show v.id < db.nextId + 2
    rcases List.mem_append.mp hv with hv' | hv'
    · have := h4 v hv'; omega
    · simp only [List.mem_singleton] at hv'
      subst hv'
      show db.nextId + 1 < db.nextId + 2
      omega
  · intro v hv
    show v.resourceId < db.nextId + 2
    rcases List.mem_append.mp hv with hv' | hv'
    · have := h5 v hv'; omega
    · simp only [List.mem_singleton] at hv'
      subst hv'
      show db.nextId < db.nextId + 2
      omega
  · intro v hv
    show v.createdAt < db.clock + 2
    rcases List.mem_append.mp hv with hv' | hv'
    · have := h6 v hv'; omega
    · simp only [List.mem_singleton] at hv'
      subst hv'
      show db.clock + 1 < db.clock + 2
      omega
  · show (db.versions ++ [createdVersion input db]).Pairwise (fun a b => a.createdAt < b.createdAt)
    rw [List.pairwise_append]
    refine ⟨h7, by simp, ?_⟩
    intro a ha b hb
    simp only [List.mem_singleton] at hb
    subst hb
    have := h6 a ha
    show a.createdAt < db.clock + 1
    omega
  · exact h8
  · intro t ht
    show t.id < db.nextId + 2
    have := h9 t ht
    omega
  · exact h10
  · exact h11
  · intro l hl
    have := h12 l hl
    constructor
    · show l.resourceId < db.nextId + 2
      omega
    · show l.tagId < db.nextId + 2
      omega
  · intro r hr hdel hver
    rw [hres] at hr
    rcases List.mem_append.mp hr with hr' | hr'
    · have hne : r.id ≠ db.nextId := Nat.ne_of_lt (h2 r hr')
      have hex : ∃ v ∈ db.versions, v.resourceId = r.id := by
        obtain ⟨v, hv, hvr⟩ := hver
        rcases List.mem_append.mp hv with hv' | hv'
        · exact ⟨v, hv', hvr⟩
        · simp only [List.mem_singleton] at hv'
          subst hv'
          exact absurd hvr (by simpa [createdVersion] using hne.symm)
      obtain ⟨cv, hcv, v, hv, hvid, hvr⟩ := h13 r hr' hdel hex
      exact ⟨cv, hcv, v, List.mem_append_left _ hv, hvid, hvr⟩
    · simp only [List.mem_singleton] at hr'
      subst hr'
      exact ⟨db.nextId + 1, rfl, createdVersion input db,
        List.mem_append_right _ (by simp), rfl, rfl⟩

/-- The storage invariant is preserved by any `create` call, successful
or rolled back, under any failure schedule. -/
theorem Inv_createAt (failAt : Option Nat) (input : CreateContentResourceInput) (db : DB)
    (hI : Inv db) : Inv (ContentResourceRepository.createAt failAt input db).2 := by
  unfold ContentResourceRepository.createAt
  cases hb : ContentResourceRepository.createBody failAt input db with
  | error e => exact hI
  | ok p =>
    obtain ⟨r, db'⟩ := p
    obtain ⟨-, n', hadd⟩ := createBody_ok_inv failAt input db r db' hb
    show Inv db'
    exact addTags_Inv failAt _ 3 db.nextId (createMid input db) n' db' hadd
      (createMid_Inv input db hI) (by show db.nextId < db.nextId + 2; omega)

/-- Inversion of a successful `findById`. -/
theorem findById_some_inv (db : DB) (id : Nat) (view : ResourceView)
    (h : db.findById id = some view) :
    ∃ r ∈ db.resources, r.id = id ∧ r.deletedAt = none ∧ view = db.viewOf r := by
  unfold DB.findById at h
  obtain ⟨r, hfind, hview⟩ := Option.map_eq_some'.mp h
  have hmem := List.mem_of_find?_eq_some hfind
  have hp := List.find?_some hfind
  simp only [Bool.and_eq_true, beq_iff_eq, Option.isNone_iff_eq_none] at hp
  exact ⟨r, hmem, hp.1, hp.2, hview.symm⟩

/-- The storage invariant survives an `UPDATE ... WHERE id = rid` whose
row function preserves the id and the current-version pointer and never
un-deletes a row, together with a clock advance. -/
theorem Inv_mapRow_clock (db : DB) (hI : Inv db) (rid : Nat) (c : Nat) (hc : db.clock ≤ c)
    (g : Resource → Resource)
    (hg : ∀ x, (g x).id = x.id ∧ (g x).currentVersionId = x.currentVersionId ∧
      ((g x).deletedAt = none → x.deletedAt = none)) :
    Inv { db with
      clock := c,
      resources := db.resources.map (fun r => if r.id = rid then g r else r) } := by
  obtain ⟨h1, h2, h3, h4, h5, h6, h7, h8, h9, h10, h11, h12, h13⟩ := hI
  refine ⟨?_, ?_, h3, h4, h5, ?_, h7, h8, h9, h10, h11, h12, ?_⟩
  · show ((db.resources.map fun r => if r.id = rid then g r else r).map Resource.id).Nodup
    rw [map_rowUpdate_id db.resources rid g (fun x => (hg x).1)]
    exact h1
  · intro r hr
    rcases List.mem_map.mp hr with ⟨r0, hr0, rfl⟩
    show (if r0.id = rid then g r0 else r0).id < db.nextId
    by_cases h : r0.id = rid
    · rw [if_pos h, (hg r0).1]
      exact h2 r0 hr0
    · rw [if_neg h]
      exact h2 r0 hr0
  · intro v hv
    exact lt_of_lt_of_le (h6 v hv) hc
  · intro r hr hdel hver
    rcases List.mem_map.mp hr with ⟨r0, hr0, rfl⟩
    by_cases h : r0.id = rid
    · simp only [if_pos h] at hdel hver ⊢
      have hdel0 : r0.deletedAt = none := (hg r0).2.2 hdel
      have hver0 : ∃ v ∈ db.versions, v.resourceId = r0.id := by
        obtain ⟨v, hv, hvr⟩ := hver
        exact ⟨v, hv, by rw [hvr, (hg r0).1]⟩
      obtain ⟨cv, hcv, v, hv, hvid, hvr⟩ := h13 r0 hr0 hdel0 hver0
      exact ⟨cv, by rw [(hg r0).2.1, hcv], v, hv, hvid, by rw [hvr, (hg r0).1]⟩
    · simp only [if_neg h] at hdel hver ⊢
      exact h13 r0 hr0 hdel hver

/-- The storage invariant survives the content branch of `update`: a
fresh version append plus the pointer repoint on an existing id. -/
theorem Inv_updContentState (db : DB) (hI : Inv db) (rid : Nat) (hrid : rid < db.nextId)
    (c : Json) (uid : String) :
    Inv { db with
      resources := db.resources.map (fun r => if r.id = rid then
        { r with currentVersionId := some db.nextId, updatedAt := db.clock + 1 } else r),
      versions := db.versions ++
        [{ id := db.nextId, resourceId := rid, content := c,
           createdAt := db.clock, createdById := uid }],
      nextId := db.nextId + 1,
      clock := db.clock + 2 } := by
  obtain ⟨h1, h2, h3, h4, h5, h6, h7, h8, h9, h10, h11, h12, h13⟩ := hI
  refine ⟨?_, ?_, ?_, ?_, ?_, ?_, ?_, h8, ?_, h10, h11, ?_, ?_⟩
  · show ((db.resources.map _).map Resource.id).Nodup
    rw [map_rowUpdate_id db.resources rid
      (fun r => { r with currentVersionId := some db.nextId, updatedAt := db.clock + 1 })
      (fun x => rfl)]
    exact h1
  · intro r hr
    rcases List.mem_map.mp hr with ⟨r0, hr0, rfl⟩
    show (if r0.id = rid then _ else r0).id < db.nextId + 1
    have := h2 r0 hr0
    by_cases h : r0.id = rid <;> simp [h] <;> omega
  · show ((db.versions ++ [_]).map Version.id).Nodup
    rw [List.map_append, List.nodup_append]
    refine ⟨h3, by simp, ?_⟩
    intro i hi
    rcases List.mem_map.mp hi with ⟨v0, hv0, rfl⟩
    simp only [List.map_cons, List.map_nil, List.mem_singleton]
    intro hcon
    have := h4 v0 hv0
    omega
  · intro v hv
    show v.id < db.nextId + 1
    rcases List.mem_append.mp hv with hv' | hv'
    · have := h4 v hv'; omega
    · simp only [List.mem_singleton] at hv'; subst hv'; show db.nextId < db.nextId + 1; omega
  · intro v hv
    show v.resourceId < db.nextId + 1
    rcases List.mem_append.mp hv with hv' | hv'
    · have := h5 v hv'; omega
    · simp only [List.mem_singleton] at hv'; subst hv'; show rid < db.nextId + 1; omega
  · intro v hv
    show v.createdAt < db.clock + 2
    rcases List.mem_append.mp hv with hv' | hv'
    · have := h6 v hv'; omega
    · simp only [List.mem_singleton] at hv'; subst hv'; show db.clock < db.clock + 2; omega
  · show (db.versions ++ [({ id := db.nextId, resourceId := rid, content := c, createdAt := db.clock, createdById := uid } : Version)]).Pairwise (fun a b => a.createdAt < b.createdAt)
    rw [List.pairwise_append]
    refine ⟨h7, by simp, ?_⟩
    intro a ha b hb
    simp only [List.mem_singleton] at hb
    subst hb
    exact h6 a ha
  · intro t ht
    show t.id < db.nextId + 1
    have := h9 t ht
    omega
  · intro l hl
    have := h12 l hl
    exact ⟨by show l.resourceId < db.nextId + 1; omega, by show l.tagId < db.nextId + 1; omega⟩
  · intro r hr hdel hver
    rcases List.mem_map.mp hr with ⟨r0, hr0, rfl⟩
    by_cases h : r0.id = rid
    · simp only [if_pos h] at hdel ⊢
      exact ⟨db.nextId, rfl,
        { id := db.nextId, resourceId := rid, content := c, createdAt := db.clock, createdById := uid },
        List.mem_append_right _ (by simp), rfl, h.symm⟩
    · simp only [if_neg h] at hdel hver ⊢
      have hver0 : ∃ v ∈ db.versions, v.resourceId = r0.id := by
        obtain ⟨v, hv, hvr⟩ := hver
        rcases List.mem_append.mp hv with hv' | hv'
        · exact ⟨v, hv', hvr⟩
        · simp only [List.mem_singleton] at hv'
          subst hv'
          exact absurd hvr.symm h
      obtain ⟨cv, hcv, v, hv, hvid, hvr⟩ := h13 r0 hr0 hdel hver0
      exact ⟨cv, hcv, v, List.mem_append_left _ hv, hvid, hvr⟩

/-- The storage invariant survives deleting a resource's links. -/
theorem Inv_deleteLinksFor (db : DB) (hI : Inv db) (rid : Nat) :
    Inv (db.deleteLinksFor rid) := by
  obtain ⟨h1, h2, h3, h4, h5, h6, h7, h8, h9, h10, h11, h12, h13⟩ := hI
  have hsub : (db.links.filter (fun l => l.resourceId != rid)).Sublist db.links :=
    List.filter_sublist db.links
  refine ⟨h1, h2, h3, h4, h5, h6, h7, h8, h9, h10, ?_, ?_, h13⟩
  · exact h11.sublist (List.Sublist.map _ hsub)
  · intro l hl
    exact h12 l (hsub.mem hl)

/-- Inversion of the `fields` branch of `update`. -/
theorem updFields_ok_inv (failAt : Option Nat) (n id : Nat) (flds : Option Json) (db : DB)
    (n1 : Nat) (db1 : DB)
    (h : ContentResourceRepository.updFields failAt n id flds db = .ok (n1, db1)) :
    (flds = none ∧ n1 = n ∧ db1 = db) ∨
    (∃ f, flds = some f ∧ n1 = n + 1 ∧ db1 = { db with
      clock := db.clock + 1,
      resources := db.resources.map (fun r => if r.id = id then
        { r with fields := some f, updatedAt := db.clock } else r) }) := by
  cases flds with
  | none =>
    simp only [ContentResourceRepository.updFields, Except.ok.injEq, Prod.mk.injEq] at h
    exact Or.inl ⟨rfl, h.1.symm, h.2.symm⟩
  | some f =>
    simp only [ContentResourceRepository.updFields, DB.tick, DB.updateResourceRow, wstep] at h
    split at h
    · exact absurd h (by simp [Except.map])
    · simp only [Except.map, Except.ok.injEq, Prod.mk.injEq] at h
      exact Or.inr ⟨f, rfl, h.1.symm, h.2.symm⟩

/-- Inversion of the `content` branch of `update`. -/
theorem updContent_ok_inv (failAt : Option Nat) (n id : Nat) (ct : Option Json) (uid : String)
    (db : DB) (n1 : Nat) (db1 : DB)
    (h : ContentResourceRepository.updContent failAt n id ct uid db = .ok (n1, db1)) :
    (ct = none ∧ n1 = n ∧ db1 = db) ∨
    (∃ c, ct = some c ∧ n1 = n + 2 ∧ db1 = { db with
      resources := db.resources.map (fun r => if r.id = id then
        { r with currentVersionId := some db.nextId, updatedAt := db.clock + 1 } else r),
      versions := db.versions ++
        [{ id := db.nextId, resourceId := id, content := c,
           createdAt := db.clock, createdById := uid }],
      nextId := db.nextId + 1,
      clock := db.clock + 2 }) := by
  cases ct with
  | none =>
    simp only [ContentResourceRepository.updContent, Except.ok.injEq, Prod.mk.injEq] at h
    exact Or.inl ⟨rfl, h.1.symm, h.2.symm⟩
  | some c =>
    simp only [ContentResourceRepository.updContent, DB.genId, DB.tick, DB.insertVersion,
      DB.updateResourceRow, wstep] at h
    split at h
    · cases h
    · rename_i db3 heq
      split at heq
      · cases heq
      · rw [Except.ok.injEq] at heq
        subst heq
        split at h
        · exact absurd h (by simp [Except.map])
        · simp only [Except.map, Except.ok.injEq, Prod.mk.injEq] at h
          exact Or.inr ⟨c, rfl, h.1.symm, h.2.symm⟩

/-- Inversion of the `tags` branch of `update`. -/
theorem updTags_ok_inv (failAt : Option Nat) (n id : Nat) (tg : Option (List String)) (db : DB)
    (db1 : DB) (h : ContentResourceRepository.updTags failAt n id tg db = .ok db1) :
    (tg = none ∧ db1 = db) ∨
    (∃ ls n', tg = some ls ∧
      ContentResourceRepository.addTags failAt (n + 1) id ls (db.deleteLinksFor id) =
        .ok (n', db1)) := by
  cases tg with
  | none =>
    simp only [ContentResourceRepository.updTags, Except.ok.injEq] at h
    exact Or.inl ⟨rfl, h.symm⟩
  | some ls =>
    simp only [ContentResourceRepository.updTags, wstep] at h
    split at h
    · cases h
    · rename_i dbD heq
      split at heq
      · cases heq
      · rw [Except.ok.injEq] at heq
        subst heq
        obtain ⟨⟨n', dbX⟩, hrun, hx⟩ := except_map_ok _ _ _ h
        simp only at hx
        exact Or.inr ⟨ls, n', rfl, by rw [hrun, hx]⟩

/-- Inversion of a successful `update` transaction body: the resource was
found, the three optional branches ran in order, and the returned value is
the final denormalized re-read. -/
theorem updateBody_ok_inv (failAt : Option Nat) (id : Nat) (input : UpdateContentResourceInput)
    (uid : String) (db0 : DB) (v : Option ResourceView) (db' : DB)
    (h : ContentResourceRepository.updateBody failAt id input uid db0 = .ok (v, db')) :
    (∃ view, db0.findById id = some view) ∧
    ∃ n1 dbf, ContentResourceRepository.updFields failAt 0 id input.fields db0 = .ok (n1, dbf) ∧
    ∃ n2 dbc,
      ContentResourceRepository.updContent failAt n1 id input.content uid dbf = .ok (n2, dbc) ∧
      ContentResourceRepository.updTags failAt n2 id input.tags dbc = .ok db' ∧
      v = db'.findById id := by
  unfold ContentResourceRepository.updateBody at h
  split at h
  · cases h
  · rename_i view hfound
    split at h
    · cases h
    · rename_i n1 dbf heq1
      split at h
      · cases h
      · rename_i n2 dbc heq2
        split at h
        · cases h
        · rename_i db3 heq3
          rw [Except.ok.injEq, Prod.mk.injEq] at h
          obtain ⟨hv, hdb⟩ := h
          subst hdb
          exact ⟨⟨view, hfound⟩, n1, dbf, heq1, n2, dbc, heq2, heq3, hv.symm⟩

/-- The storage invariant is preserved by any `update` call, successful
or rolled back, under any failure schedule. -/
theorem Inv_updateAt (failAt : Option Nat) (id : Nat) (input : UpdateContentResourceInput)
    (uid : String) (db : DB) (hI : Inv db) :
    Inv (ContentResourceRepository.updateAt failAt id input uid db).2 := by
  unfold ContentResourceRepository.updateAt
  cases hb : ContentResourceRepository.updateBody failAt id input uid db with
  | error e => exact hI
  | ok p =>
    obtain ⟨v, db'⟩ := p
    show Inv db'
    obtain ⟨⟨view, hfound⟩, n1, dbf, heq1, n2, dbc, heq2, heq3, -⟩ :=
      updateBody_ok_inv failAt id input uid db v db' hb
    obtain ⟨r0, hr0, hr0id, -, -⟩ := findById_some_inv db id view hfound
    have hid : id < db.nextId := by
      obtain ⟨-, h2, -, -, -, -, -, -, -, -, -, -, -⟩ := hI
      exact hr0id ▸ h2 r0 hr0
    have hf : Inv dbf ∧ id < dbf.nextId := by
      rcases updFields_ok_inv failAt 0 id input.fields db n1 dbf heq1 with
        ⟨-, -, rfl⟩ | ⟨f, -, -, rfl⟩
      · exact ⟨hI, hid⟩
      · exact ⟨Inv_mapRow_clock db hI id (db.clock + 1) (by omega) _
          (fun x => ⟨rfl, rfl, fun hh => hh⟩), hid⟩
    have hc : Inv dbc ∧ id < dbc.nextId := by
      rcases updContent_ok_inv failAt n1 id input.content uid dbf n2 dbc heq2 with
        ⟨-, -, rfl⟩ | ⟨cc, -, -, rfl⟩
      · exact hf
      · refine ⟨Inv_updContentState dbf hf.1 id hf.2 cc uid, ?_⟩
        show id < dbf.nextId + 1
        have := hf.2
        omega
    rcases updTags_ok_inv failAt n2 id input.tags dbc db' heq3 with ⟨-, rfl⟩ | ⟨ls, n', -, hadd⟩
    · exact hc.1
    · exact addTags_Inv failAt ls (n2 + 1) id (dbc.deleteLinksFor id) n' db' hadd
        (Inv_deleteLinksFor dbc hc.1 id) hc.2

/-- The storage invariant is preserved by `softDelete`. -/
theorem Inv_softDelete (id : Nat) (db : DB) (hI : Inv db) :
    Inv (ContentResourceRepository.softDelete id db) :=
  Inv_mapRow_clock db hI id (db.clock + 1) (by omega)
    (fun r => { r with deletedAt := some db.clock, updatedAt := db.clock })
    (fun x => ⟨rfl, rfl, fun hh => by cases hh⟩)

theorem Inv_empty : Inv DB.empty := by
  refine ⟨?_, ?_, ?_, ?_, ?_, ?_, ?_, ?_, ?_, ?_, ?_, ?_, ?_⟩ <;> simp [DB.empty]

/-- Every reachable storage state satisfies the invariant. -/
theorem reachable_inv (db : DB) (h : Reachable db) : Inv db := by
  induction h with
  | init => exact Inv_empty
  | create failAt input db0 _ ih => exact Inv_createAt failAt input db0 ih
  | update failAt id input uid db0 _ ih => exact Inv_updateAt failAt id input uid db0 ih
  | softDelete id db0 _ ih => exact Inv_softDelete id db0 ih

theorem inv_tagCtx (db : DB) (hI : Inv db) : TagCtx db := by
  obtain ⟨-, -, -, -, -, -, -, h8, h9, h10, h11, h12, -⟩ := hI
  exact ⟨h8, h9, h10, h11, fun l hl => (h12 l hl).2⟩

/-- In the mid state of `create`, the fresh resource id has no links. -/
theorem createMid_fresh (input : CreateContentResourceInput) (db : DB) (hI : Inv db) :
    ∀ lab, ¬ seenLabel (createMid input db) db.nextId lab := by
  rintro lab ⟨l, hl, hlrid, -⟩
  obtain ⟨-, -, -, -, -, -, -, -, -, -, -, h12, -⟩ := hI
  exact absurd hlrid (Nat.ne_of_lt (h12 l hl).1)

/-- A no-failure `create` transaction body is the tag loop run from the
three-write mid state (the loop is empty when tags are absent or empty). -/
theorem createBody_none_run (input : CreateContentResourceInput) (db : DB) :
    ContentResourceRepository.createBody none input db =
      (ContentResourceRepository.addTags none 3 db.nextId (input.tags.getD [])
        (createMid input db)).map (fun p => (createdRow input db, p.2)) := by
  cases htags : input.tags with
  | none =>
    simp [ContentResourceRepository.createBody, DB.genId, DB.tick, DB.insertResource,
      DB.insertVersion, DB.updateResourceRow, wstep_none, htags,
      ContentResourceRepository.addTags, Except.map, createMid, createdRow, createdVersion]
  | some ls =>
    cases ls with
    | nil =>
      simp [ContentResourceRepository.createBody, DB.genId, DB.tick, DB.insertResource,
        DB.insertVersion, DB.updateResourceRow, wstep_none, htags,
        ContentResourceRepository.addTags, Except.map, createMid, createdRow, createdVersion]
    | cons a as =>
      simp only [ContentResourceRepository.createBody, DB.genId, DB.tick, DB.insertResource,
        DB.insertVersion, DB.updateResourceRow, wstep_none, htags, List.isEmpty_cons,
        Option.getD_some]
      rfl

/-- `create` in terms of the tag loop over the mid state. -/
theorem create_run (input : CreateContentResourceInput) (db : DB) :
    ContentResourceRepository.create input db =
      (match ContentResourceRepository.addTags none 3 db.nextId (input.tags.getD [])
        (createMid input db) with
       | .ok p => (.ok (createdRow input db), p.2)
       | .error e => (.error e, db)) := by
  unfold ContentResourceRepository.create ContentResourceRepository.createAt
  rw [createBody_none_run]
  cases ContentResourceRepository.addTags none 3 db.nextId (input.tags.getD [])
      (createMid input db) with
  | ok p => simp [Except.map]
  | error e => simp [Except.map]

theorem versionsOf_congr (db1 db2 : DB) (rid : Nat) (h : db1.versions = db2.versions) :
    versionsOf db1 rid = versionsOf db2 rid := by
  unfold versionsOf
  rw [h]

/-- Bookkeeping for one resource across content updates: the invariant,
the number of its versions, and the current-version pointer designating
the last version appended. -/
def Tracked (rid k : Nat) (db : DB) : Prop :=
  Inv db ∧ (versionsOf db rid).length = k ∧ versionsOf db rid ≠ [] ∧
  ∃ res ∈ db.resources, res.id = rid ∧ res.deletedAt = none ∧
    res.currentVersionId = ((versionsOf db rid).getLast?).map Version.id

/-- A successful `create` leaves the fresh resource tracked with exactly
its initial version. -/
theorem tracked_create (input : CreateContentResourceInput) (db : DB) (hI : Inv db)
    (r : Resource) (db1 : DB)
    (hc : ContentResourceRepository.create input db = (.ok r, db1)) :
    r.id = db.nextId ∧ Tracked r.id 1 db1 := by
  rw [create_run] at hc
  cases hadd : ContentResourceRepository.addTags none 3 db.nextId (input.tags.getD [])
      (createMid input db) with
  | error e =>
    simp only [hadd] at hc
    exact absurd (congrArg Prod.fst hc) (by simp)
  | ok p =>
    obtain ⟨n', db'⟩ := p
    simp only [hadd] at hc
    rw [Prod.mk.injEq, Except.ok.injEq] at hc
    obtain ⟨hr, hdb⟩ := hc
    subst hr
    subst hdb
    have hI' := hI
    obtain ⟨-, h2, -, -, h5, -, -, -, -, -, -, -, -⟩ := hI'
    obtain ⟨hres, hver, -, -, -, -⟩ :=
      addTags_ok_inv none _ 3 db.nextId (createMid input db) n' db' hadd
    have hInv1 : Inv db' := by
      have h := Inv_createAt none input db hI
      have hca : ContentResourceRepository.createAt none input db =
          (.ok (createdRow input db), db') := by
        have h0 := create_run input db
        simp only [hadd] at h0
        exact h0
      rw [hca] at h
      exact h
    have hvers : versionsOf db' db.nextId = [createdVersion input db] := by
      unfold versionsOf
      rw [hver]
      show (db.versions ++ [createdVersion input db]).filter _ = _
      rw [List.filter_append]
      have h0 : db.versions.filter (fun v => v.resourceId == db.nextId) = [] := by
        refine List.filter_eq_nil_iff.mpr (fun v hv => ?_)
        simpa using Nat.ne_of_lt (h5 v hv)
      rw [h0]
      simp [createdVersion]
    have hrow : ({ createdRow input db with
        currentVersionId := some (db.nextId + 1) } : Resource) ∈ db'.resources := by
      rw [hres, createMid_resources input db h2]
      exact List.mem_append_right _ (by simp)
    refine ⟨rfl, hInv1, ?_, ?_, ?_⟩
    · show (versionsOf db' db.nextId).length = 1
      rw [hvers]
      rfl
    · show versionsOf db' db.nextId ≠ []
      rw [hvers]
      simp
    · refine ⟨_, hrow, rfl, rfl, ?_⟩
      show some (db.nextId + 1) = ((versionsOf db' db.nextId).getLast?).map Version.id
      rw [hvers]
      rfl

/-- A successful content update appends exactly one version and repoints
the current-version pointer to it. -/
theorem tracked_update (rid k : Nat) (db : DB) (hT : Tracked rid k db)
    (u : UpdateContentResourceInput) (uid : String) (hcont : u.content.isSome)
    (v : Option ResourceView) (db' : DB)
    (hu : ContentResourceRepository.update rid u uid db = (.ok v, db')) :
    Tracked rid (k + 1) db' := by
  obtain ⟨hI, hlen, hne, res, hresmem, hresid, hresdel, hresptr⟩ := hT
  have hb : ContentResourceRepository.updateBody none rid u uid db = .ok (v, db') := by
    unfold ContentResourceRepository.update ContentResourceRepository.updateAt at hu
    cases hbb : ContentResourceRepository.updateBody none rid u uid db with
    | error e =>
      simp only [hbb] at hu
      exact absurd (congrArg Prod.fst hu) (by simp)
    | ok p =>
      obtain ⟨v0, dbX⟩ := p
      simp only [hbb, Prod.mk.injEq, Except.ok.injEq] at hu
      obtain ⟨h1, h2⟩ := hu
      subst h1
      subst h2
      rfl
  have hInv' : Inv db' := by
    have h := Inv_updateAt none rid u uid db hI
    rw [show ContentResourceRepository.updateAt none rid u uid db = (.ok v, db') from hu] at h
    exact h
  obtain ⟨⟨view, hfound⟩, n1, dbf, heq1, n2, dbc, heq2, heq3, -⟩ :=
    updateBody_ok_inv none rid u uid db v db' hb
  obtain ⟨c, hc⟩ := Option.isSome_iff_exists.mp hcont
  have hfstage : dbf.versions = db.versions ∧
      ∃ resf ∈ dbf.resources, resf.id = rid ∧ resf.deletedAt = none := by
    rcases updFields_ok_inv none 0 rid u.fields db n1 dbf heq1 with ⟨-, -, rfl⟩ | ⟨f, -, -, rfl⟩
    · exact ⟨rfl, res, hresmem, hresid, hresdel⟩
    · exact ⟨rfl, { res with fields := some f, updatedAt := db.clock },
        List.mem_map.mpr ⟨res, hresmem, by simp [hresid]⟩, hresid, hresdel⟩
  obtain ⟨hfV, resf, hresfmem, hresfid, hresfdel⟩ := hfstage
  rcases updContent_ok_inv none n1 rid u.content uid dbf n2 dbc heq2 with
    ⟨hnone, -, -⟩ | ⟨c', hc', -, hceq⟩
  · rw [hc] at hnone; cases hnone
  · have hvc : versionsOf dbc rid = versionsOf db rid ++
        [({ id := dbf.nextId, resourceId := rid, content := c', createdAt := dbf.clock,
            createdById := uid } : Version)] := by
      rw [hceq]
      unfold versionsOf
      show (dbf.versions ++ _).filter _ = _
      rw [hfV, List.filter_append]
      simp
    have hrowc : ({ resf with
        currentVersionId := some dbf.nextId,
        updatedAt := dbf.clock + 1 } : Resource) ∈ dbc.resources := by
      rw [hceq]
      exact List.mem_map.mpr ⟨resf, hresfmem, by simp [hresfid]⟩
    have hlast : db'.versions = dbc.versions ∧ db'.resources = dbc.resources := by
      rcases updTags_ok_inv none n2 rid u.tags dbc db' heq3 with ⟨-, rfl⟩ | ⟨ls, n', -, hadd⟩
      · exact ⟨rfl, rfl⟩
      · obtain ⟨hres2, hver2, -, -, -, -⟩ :=
          addTags_ok_inv none ls (n2 + 1) rid (dbc.deleteLinksFor rid) n' db' hadd
        exact ⟨hver2, hres2⟩
    have hv' : versionsOf db' rid = versionsOf db rid ++
        [({ id := dbf.nextId, resourceId := rid, content := c', createdAt := dbf.clock,
            createdById := uid } : Version)] := by
      rw [versionsOf_congr db' dbc rid hlast.1]
      exact hvc
    refine ⟨hInv', ?_, ?_, ?_⟩
    · rw [hv', List.length_append, hlen]
      rfl
    · rw [hv']
      simp
    · refine ⟨{ resf with currentVersionId := some dbf.nextId, updatedAt := dbf.clock + 1 },
        by rw [hlast.2]; exact hrowc, hresfid, hresfdel, ?_⟩
      show some dbf.nextId = ((versionsOf db' rid).getLast?).map Version.id
      rw [hv', List.getLast?_concat]
      rfl

/-- Folding `tracked_update` over a list of content updates. -/
theorem tracked_applyUpdates (rid : Nat) (uid : String)
    (ups : List UpdateContentResourceInput) (db : DB) (k : Nat) (hT : Tracked rid k db)
    (hall : ∀ u ∈ ups, u.content.isSome) (db' : DB)
    (hap : applyUpdates rid uid ups db = .ok db') :
    Tracked rid (k + ups.length) db' := by
  induction ups generalizing db k with
  | nil =>
    simp only [applyUpdates, Except.ok.injEq] at hap
    subst hap
    simpa using hT
  | cons u us ih =>
    simp only [applyUpdates] at hap
    split at hap
    · rename_i v dbX heq
      have hT1 : Tracked rid (k + 1) dbX :=
        tracked_update rid k db hT u uid (hall u (by simp)) v dbX heq
      have := ih dbX (k + 1) hT1 (fun u' hu' => hall u' (by simp [hu'])) hap
      have harith : k + 1 + us.length = k + (us.length + 1) := by omega
      rw [harith] at this
      simpa using this
    · cases hap

theorem forall2_mem_left {α β : Type} {P : α → β → Prop} {as : List α} {bs : List β}
    (h : List.Forall₂ P as bs) (a : α) (ha : a ∈ as) : ∃ b ∈ bs, P a b := by
  induction h with
  | nil => simp at ha
  | cons hab _ ih =>
    rcases List.mem_cons.mp ha with rfl | ha'
    · exact ⟨_, by simp, hab⟩
    · rcases ih ha' with ⟨b, hbmem, hp⟩
      exact ⟨b, by simp [hbmem], hp⟩

/-- The labels embedded by the denormalized read's tag join are exactly
the labels the tag loop linked, in order. -/
theorem view_tags_labels (dbT : DB) (hnd : (dbT.tags.map Tag.id).Nodup) (rid : Nat)
    (labels : List String) (ls : List Link)
    (hfa : List.Forall₂ (fun lab l => l.resourceId = rid ∧
      ∃ t ∈ dbT.tags, t.id = l.tagId ∧ t.label = lab) labels ls) :
    (ls.filterMap (fun l => (dbT.tags.find? (fun t => t.id == l.tagId)).map
      (fun t => (l, t)))).map (fun p => p.2.label) = labels := by
  induction hfa with
  | nil => rfl
  | cons hab htail ih =>
    rename_i lab l labels0 ls0
    obtain ⟨-, t, htm, htid, htlab⟩ := hab
    have hfind : dbT.tags.find? (fun x => x.id == l.tagId) = some t := by
      rw [← htid]
      exact find?_eq_of_nodup_map Tag.id dbT.tags hnd t htm
    simp [List.filterMap_cons, hfind, htlab, ih]

theorem insertByCreatedAt_of_le (v w : Version) (ws : List Version)
    (h : v.createdAt ≤ w.createdAt) : insertByCreatedAt v (w :: ws) = v :: w :: ws := by
  simp [insertByCreatedAt, h]

theorem sortByCreatedAt_eq_self (l : List Version)
    (h : l.Pairwise (fun a b => a.createdAt ≤ b.createdAt)) : sortByCreatedAt l = l := by
  induction l with
  | nil => rfl
  | cons v vs ih =>
    rw [sortByCreatedAt, ih (List.pairwise_cons.mp h).2]
    cases vs with
    | nil => rfl
    | cons w ws =>
      exact insertByCreatedAt_of_le v w ws ((List.pairwise_cons.mp h).1 w (by simp))

instance {ε α : Type} [DecidableEq ε] [DecidableEq α] : DecidableEq (Except ε α) := fun a b =>
  match a, b with
  | .ok x, .ok y =>
    if h : x = y then isTrue (by rw [h]) else isFalse (fun hc => h (Except.ok.inj hc))
  | .error x, .error y =>
    if h : x = y then isTrue (by rw [h]) else isFalse (fun hc => h (Except.error.inj hc))
  | .ok _, .error _ => isFalse (fun hc => Except.noConfusion hc)
  | .error _, .ok _ => isFalse (fun hc => Except.noConfusion hc)

theorem filter_beq_singleton (labels : List String) (hnd : labels.Nodup) (L : String)
    (hL : L ∈ labels) : labels.filter (fun x => x == L) = [L] := by
  induction labels with
  | nil => simp at hL
  | cons a as ih =>
    obtain ⟨hna, hnd'⟩ := List.nodup_cons.mp hnd
    rcases List.mem_cons.mp hL with rfl | hL'
    · have h0 : as.filter (fun x => x == L) = [] := by
        refine List.filter_eq_nil_iff.mpr (fun x hx hpx => ?_)
        exact hna (by rwa [show x = L from by simpa using hpx] at hx)
      simp [List.filter, h0]
    · have hne : (a == L) = false := by
        by_contra hcon
        have : a = L := by
          cases hb : (a == L) with
          | false => exact absurd hb hcon
          | true => exact eq_of_beq hb
        exact hna (this ▸ hL')
      simp only [List.filter, hne]
      exact ih hnd' hL'

/-- Inversion of a successful `create`: the returned row, the
no-duplicate-labels fact (else the tag loop would have aborted), and the
tag loop equation. -/
theorem create_ok_chars (input : CreateContentResourceInput) (db : DB) (hI : Inv db)
    (r : Resource) (db' : DB)
    (hc : ContentResourceRepository.create input db = (.ok r, db')) :
    r = createdRow input db ∧ (input.tags.getD []).Nodup ∧
    ∃ n', ContentResourceRepository.addTags none 3 db.nextId (input.tags.getD [])
      (createMid input db) = .ok (n', db') := by
  rw [create_run] at hc
  cases hadd : ContentResourceRepository.addTags none 3 db.nextId (input.tags.getD [])
      (createMid input db) with
  | error e =>
    simp only [hadd] at hc
    exact absurd (congrArg Prod.fst hc) (by simp)
  | ok p =>
    obtain ⟨n', dbX⟩ := p
    simp only [hadd] at hc
    rw [Prod.mk.injEq, Except.ok.injEq] at hc
    obtain ⟨hr, hdb⟩ := hc
    subst hr
    subst hdb
    refine ⟨rfl, ?_, n', rfl⟩
    by_contra hnd
    have hfail := addTags_fails (input.tags.getD []) 3 db.nextId (createMid input db)
      (inv_tagCtx _ (createMid_Inv input db hI)) (Or.inl hnd)
    rw [hfail] at hadd
    cases hadd

/-- Full characterization of a successful `create`. -/
theorem create_ok_strong (input : CreateContentResourceInput) (db : DB) (hI : Inv db)
    (r : Resource) (db' : DB)
    (hc : ContentResourceRepository.create input db = (.ok r, db')) :
    r = createdRow input db ∧ (input.tags.getD []).Nodup ∧ Inv db' ∧
    db'.resources = (createMid input db).resources ∧
    db'.versions = (createMid input db).versions ∧
    (∃ ts, db'.tags = db.tags ++ ts ∧
      ∀ t ∈ ts, t.label ∈ input.tags.getD [] ∧ db.nextId ≤ t.id) ∧
    (∃ ls, db'.links = db.links ++ ls ∧
      List.Forall₂ (fun lab l => l.resourceId = db.nextId ∧
        ∃ t ∈ db'.tags, t.id = l.tagId ∧ t.label = lab) (input.tags.getD []) ls) := by
  obtain ⟨hr, hnd, n', hadd⟩ := create_ok_chars input db hI r db' hc
  obtain ⟨n'', db'', hadd2, hres, hver, -, -, ⟨ts, htags, hts⟩, ⟨ls, hlinks, hfa⟩, -⟩ :=
    addTags_ok (input.tags.getD []) 3 db.nextId (createMid input db)
      (inv_tagCtx _ (createMid_Inv input db hI)) hnd
      (fun lab _ => createMid_fresh input db hI lab)
  rw [hadd] at hadd2
  rw [Except.ok.injEq, Prod.mk.injEq] at hadd2
  obtain ⟨-, hdbeq⟩ := hadd2
  subst hdbeq
  have hInv' : Inv db' := by
    have h := Inv_createAt none input db hI
    rw [show ContentResourceRepository.createAt none input db = (.ok r, db') from hc] at h
    exact h
  refine ⟨hr, hnd, hInv', hres, hver, ⟨ts, by rw [htags]; rfl, ?_⟩,
    ⟨ls, by rw [hlinks]; rfl, hfa⟩⟩
  intro t ht
  refine ⟨(hts t ht).1, le_trans ?_ (hts t ht).2⟩
  show db.nextId ≤ db.nextId + 2
  omega

/-! ## Concrete data for the executable witnesses -/

/-- A concrete create input (the spec's scenario). -/
def cInput : CreateContentResourceInput :=
  { tipe := "article", createdById := "u1", fields := none, content := "T",
    tags := some ["x", "y"] }

/-- The store after one concrete create. -/
def dbOne : DB := (ContentResourceRepository.create cInput DB.empty).2

/-- A concrete content-only update input. -/
def uContent : UpdateContentResourceInput :=
  { fields := none, content := some "T2", tags := none, state := none }

/-- A concrete state-only update input. -/
def uState : UpdateContentResourceInput :=
  { fields := none, content := none, tags := none, state := some .published }

/-- The resource row stored by the concrete create (pointer already set). -/
def rowOne : Resource :=
  { id := 0, tipe := "article", createdById := "u1", fields := none,
    currentVersionId := some 1, state := .draft, createdAt := 0, updatedAt := 0,
    deletedAt := none }

/-! ## Claims -/

/-- C2: for every Create or Update call in which a storage step fails
mid-transaction, the entire storage state is unchanged from before the
call: the transaction rolls back and no partial resource, version or link
row remains. -/
theorem C2_atomic_rollback (db : DB) (failAt : Option Nat)
    (input : CreateContentResourceInput) (id : Nat) (uIn : UpdateContentResourceInput)
    (uid : String) :
    (isOk (ContentResourceRepository.createAt failAt input db).1 = false →
      (ContentResourceRepository.createAt failAt input db).2 = db) ∧
    (isOk (ContentResourceRepository.updateAt failAt id uIn uid db).1 = false →
      (ContentResourceRepository.updateAt failAt id uIn uid db).2 = db) := by
  constructor
  · intro h
    unfold ContentResourceRepository.createAt at h ⊢
    cases hb : ContentResourceRepository.createBody failAt input db with
    | error e => simp only [hb]
    | ok p =>
      obtain ⟨r, db'⟩ := p
      simp only [hb, isOk] at h
      exact Bool.noConfusion h
  · intro h
    unfold ContentResourceRepository.updateAt at h ⊢
    cases hb : ContentResourceRepository.updateBody failAt id uIn uid db with
    | error e => simp only [hb]
    | ok p =>
      obtain ⟨v, db'⟩ := p
      simp only [hb, isOk] at h
      exact Bool.noConfusion h

/-- Witness for C2: a create whose third write (the current-version
pointer update, after the version insert) fails leaves an empty store
empty, and an update whose pointer write fails leaves the store as it
was. -/
theorem C2_atomic_rollback_witness :
    isOk (ContentResourceRepository.createAt (some 2) cInput DB.empty).1 = false ∧
    (ContentResourceRepository.createAt (some 2) cInput DB.empty).2 = DB.empty ∧
    isOk (ContentResourceRepository.updateAt (some 1) 0 uContent "u1" dbOne).1 = false ∧
    (ContentResourceRepository.updateAt (some 1) 0 uContent "u1" dbOne).2 = dbOne := by
  refine ⟨by decide, ?_, by decide, ?_⟩
  · exact (C2_atomic_rollback DB.empty (some 2) cInput 0 uContent "u1").1 (by decide)
  · exact (C2_atomic_rollback dbOne (some 1) cInput 0 uContent "u1").2 (by decide)

/-- C3: in every state reachable by any sequence of repository
operations, every non-soft-deleted resource that has at least one version
row has a non-null current-version pointer, and that pointer references a
version row whose resource id equals the resource's own id. -/
theorem C3_current_version_pointer (db : DB) (h : Reachable db) :
    ∀ r ∈ db.resources, r.deletedAt = none →
      (∃ v ∈ db.versions, v.resourceId = r.id) →
      ∃ cv, r.currentVersionId = some cv ∧
        ∃ v ∈ db.versions, v.id = cv ∧ v.resourceId = r.id := by
  obtain ⟨-, -, -, -, -, -, -, -, -, -, -, -, h13⟩ := reachable_inv db h
  exact h13

/-- Witness for C3 at the store reached by one create. -/
theorem C3_current_version_pointer_witness :
    ∃ cv, rowOne.currentVersionId = some cv ∧
      ∃ v ∈ (ContentResourceRepository.createAt none cInput DB.empty).2.versions,
        v.id = cv ∧ v.resourceId = rowOne.id := by
  have hr : Reachable (ContentResourceRepository.createAt none cInput DB.empty).2 :=
    Reachable.create none cInput DB.empty Reachable.init
  exact C3_current_version_pointer _ hr rowOne (by decide) (by decide) (by decide)

/-- C5 counterexample: `getResource` has no try/catch, so a raw storage
failure of the repository's `findById` reaches the service caller
unwrapped, not as a `ContentResourceError`. -/
theorem C5_raw_error_escape_counterexample :
    ContentResourceService.getResource "r1" (.error .injected) = .error (.raw .injected) := by
  decide

/-- C5 amended: the mutating service methods and `getVersionHistory` wrap
every storage failure into a `ContentResourceError` (one of the three
codes), but `getResource` and `getResourcesByType` are excluded: they
propagate raw storage errors. -/
theorem C5_mutating_methods_wrap_errors :
    (∀ (input : CreateContentResourceInput) (o : RepoOutcome Resource),
      noRawError (ContentResourceService.createResource input o) = true) ∧
    (∀ (id : String) (input : UpdateContentResourceInput) (uid : String)
      (f : RepoOutcome (Option ResourceView)) (u : RepoOutcome (Option ResourceView)),
      noRawError (ContentResourceService.updateResource id input uid f u) = true) ∧
    (∀ (id : String) (f : RepoOutcome (Option ResourceView)) (d : RepoOutcome Unit),
      noRawError (ContentResourceService.deleteResource id f d) = true) ∧
    (∀ (id : String) (f : RepoOutcome (Option ResourceView)) (hs : RepoOutcome (List Version)),
      noRawError (ContentResourceService.getVersionHistory id f hs) = true) := by
  refine ⟨?_, ?_, ?_, ?_⟩
  · intro input o
    unfold ContentResourceService.createResource
    split
    · rfl
    · cases o <;> rfl
  · intro id input uid f u
    unfold ContentResourceService.updateResource
    split
    · rfl
    · split
      · rfl
      · split
        · rfl
        · cases f with
          | error e => rfl
          | ok fo =>
            cases fo with
            | none => rfl
            | some w => cases u <;> rfl
  · intro id f d
    unfold ContentResourceService.deleteResource
    split
    · rfl
    · cases f with
      | error e => rfl
      | ok fo =>
        cases fo with
        | none => rfl
        | some w => cases d <;> rfl
  · intro id f hs
    unfold ContentResourceService.getVersionHistory
    split
    · rfl
    · cases f with
      | error e => rfl
      | ok fo =>
        cases fo with
        | none => rfl
        | some w => cases hs <;> rfl

/-- C6 counterexample: an update whose input sets `state := published` on
a freshly created (draft) resource succeeds, but the stored workflow
state is still `draft`, not `published` — `update` never reads
`input.state`. -/
theorem C6_state_input_ignored_counterexample :
    isOk (ContentResourceRepository.update 0 uState "u1" dbOne).1 = true ∧
    (ContentResourceRepository.update 0 uState "u1" dbOne).2.resources.map Resource.state =
      [WorkflowState.draft] := by
  constructor <;> decide

/-- C6 amended: an update carrying only a `state` value succeeds without
any transition check, but leaves the whole store unchanged; more
generally, no update call ever changes any resource's workflow state. -/
theorem C6_update_never_writes_state (db : DB) (id : Nat) (s : WorkflowState) (uid : String)
    (view : ResourceView) (hfound : db.findById id = some view) :
    ContentResourceRepository.update id
      { fields := none, content := none, tags := none, state := some s } uid db =
      (.ok (db.findById id), db) ∧
    ∀ (failAt : Option Nat) (input : UpdateContentResourceInput) (uid' : String),
      (ContentResourceRepository.updateAt failAt id input uid' db).2.resources.map
        (fun r => (r.id, r.state)) = db.resources.map (fun r => (r.id, r.state)) := by
  constructor
  · unfold ContentResourceRepository.update ContentResourceRepository.updateAt
      ContentResourceRepository.updateBody
    simp only [hfound, ContentResourceRepository.updFields, ContentResourceRepository.updContent,
      ContentResourceRepository.updTags]
  · intro failAt input uid'
    unfold ContentResourceRepository.updateAt
    cases hb : ContentResourceRepository.updateBody failAt id input uid' db with
    | error e => rfl
    | ok p =>
      obtain ⟨v, db'⟩ := p
      show db'.resources.map _ = _
      obtain ⟨-, n1, dbf, heq1, n2, dbc, heq2, heq3, -⟩ :=
        updateBody_ok_inv failAt id input uid' db v db' hb
      have hstf : dbf.resources.map (fun r => (r.id, r.state)) =
          db.resources.map (fun r => (r.id, r.state)) := by
        rcases updFields_ok_inv failAt 0 id input.fields db n1 dbf heq1 with
          ⟨-, -, rfl⟩ | ⟨f, -, -, rfl⟩
        · rfl
        · show (db.resources.map _).map _ = _
          rw [List.map_map]
          apply List.map_congr_left
          intro r _
          by_cases h : r.id = id <;> simp [h]
      have hstc : dbc.resources.map (fun r => (r.id, r.state)) =
          dbf.resources.map (fun r => (r.id, r.state)) := by
        rcases updContent_ok_inv failAt n1 id input.content uid' dbf n2 dbc heq2 with
          ⟨-, -, rfl⟩ | ⟨c, -, -, rfl⟩
        · rfl
        · show (dbf.resources.map _).map _ = _
          rw [List.map_map]
          apply List.map_congr_left
          intro r _
          by_cases h : r.id = id <;> simp [h]
      have hstt : db'.resources = dbc.resources := by
        rcases updTags_ok_inv failAt n2 id input.tags dbc db' heq3 with ⟨-, rfl⟩ | ⟨ls, n', -, hadd⟩
        · rfl
        · exact (addTags_ok_inv failAt ls (n2 + 1) id (dbc.deleteLinksFor id) n' db' hadd).1
      rw [hstt, hstc, hstf]

/-- Witness for C6 at a concrete store. -/
theorem C6_update_never_writes_state_witness :
    ContentResourceRepository.update 0 uState "u1" dbOne = (.ok (dbOne.findById 0), dbOne) ∧
    (ContentResourceRepository.updateAt none 0 uContent "u1" dbOne).2.resources.map
      (fun r => (r.id, r.state)) = dbOne.resources.map (fun r => (r.id, r.state)) := by
  have h := C6_update_never_writes_state dbOne 0 .published "u1"
    (dbOne.viewOf rowOne) (by decide)
  exact ⟨h.1, h.2 none uContent "u1"⟩

/-- C7: after `softDelete id`, both `findById id` and `findByType`
exclude the resource, while its version rows, link rows and all tag rows
are untouched, other resource rows are untouched, and the deleted row
itself survives with only `deleted_at`/`updated_at` re-stamped. -/
theorem C7_soft_delete_visibility (db : DB) (id : Nat) :
    (ContentResourceRepository.softDelete id db).findById id = none ∧
    (∀ tipe : String, ∀ v ∈ (ContentResourceRepository.softDelete id db).findByType tipe,
      v.resource.id ≠ id) ∧
    (ContentResourceRepository.softDelete id db).versions = db.versions ∧
    (ContentResourceRepository.softDelete id db).tags = db.tags ∧
    (ContentResourceRepository.softDelete id db).links = db.links ∧
    (∀ r ∈ db.resources, r.id ≠ id →
      r ∈ (ContentResourceRepository.softDelete id db).resources) ∧
    (∀ r ∈ db.resources, r.id = id →
      { r with deletedAt := some db.clock, updatedAt := db.clock } ∈
        (ContentResourceRepository.softDelete id db).resources) := by
  refine ⟨?_, ?_, rfl, rfl, rfl, ?_, ?_⟩
  · unfold DB.findById
    rw [Option.map_eq_none']
    refine List.find?_eq_none.mpr (fun x hx => ?_)
    show ¬(x.id == id && x.deletedAt.isNone) = true
    rcases List.mem_map.mp hx with ⟨r0, hr0, rfl⟩
    by_cases h : r0.id = id
    · simp [h]
    · simp [h]
  · intro tipe v hv
    unfold DB.findByType at hv
    rcases List.mem_map.mp hv with ⟨r0, hr0, rfl⟩
    have hp := List.of_mem_filter hr0
    simp only [Bool.and_eq_true, Option.isNone_iff_eq_none, beq_iff_eq] at hp
    rcases List.mem_filter.mp hr0 with ⟨hr0m, -⟩
    rcases List.mem_map.mp hr0m with ⟨r1, hr1, hr1eq⟩
    intro hcon
    show False
    by_cases h : r1.id = id
    · rw [← hr1eq] at hp
      simp [h] at hp
    · rw [← hr1eq] at hcon
      simp only [DB.viewOf] at hcon
      rw [if_neg h] at hcon
      exact h hcon
  · intro r hr hne
    exact List.mem_map.mpr ⟨r, hr, by rw [if_neg hne]⟩
  · intro r hr heq
    exact List.mem_map.mpr ⟨r, hr, by rw [if_pos heq]⟩

/-- C10: a Create or Update call whose tags list contains the same label
twice resolves the second occurrence to the tag row created or found at
the first, collides on the link table's composite (resourceId, tagId)
primary key, and the whole transaction aborts with no state change. -/
theorem C10_duplicate_label_aborts (db : DB) (hI : Inv db)
    (input : CreateContentResourceInput) (ls : List String)
    (htags : input.tags = some ls) (hdup : ¬ ls.Nodup)
    (id : Nat) (uIn : UpdateContentResourceInput) (uid : String) (view : ResourceView)
    (hfound : db.findById id = some view) (hutags : uIn.tags = some ls) :
    ContentResourceRepository.create input db = (.error .pkViolation, db) ∧
    ContentResourceRepository.update id uIn uid db = (.error .pkViolation, db) := by
  constructor
  · rw [create_run]
    have hfail : ContentResourceRepository.addTags none 3 db.nextId (input.tags.getD [])
        (createMid input db) = .error .pkViolation :=
      addTags_fails _ 3 db.nextId (createMid input db)
        (inv_tagCtx _ (createMid_Inv input db hI))
        (Or.inl (by rw [htags]; simpa using hdup))
    simp only [hfail]
  · unfold ContentResourceRepository.update ContentResourceRepository.updateAt
    have hid : id < db.nextId := by
      obtain ⟨r0, hr0, hr0id, -, -⟩ := findById_some_inv db id view hfound
      obtain ⟨-, h2, -, -, -, -, -, -, -, -, -, -, -⟩ := hI
      exact hr0id ▸ h2 r0 hr0
    obtain ⟨⟨n1, dbf⟩, heq1⟩ : ∃ p,
        ContentResourceRepository.updFields none 0 id uIn.fields db = .ok p := by
      cases hres : ContentResourceRepository.updFields none 0 id uIn.fields db with
      | ok p => exact ⟨p, rfl⟩
      | error e =>
        cases hfl : uIn.fields <;> rw [hfl] at hres <;>
          simp [ContentResourceRepository.updFields, DB.tick, DB.updateResourceRow,
            wstep_none, Except.map] at hres
    obtain ⟨⟨n2, dbc⟩, heq2⟩ : ∃ p,
        ContentResourceRepository.updContent none n1 id uIn.content uid dbf = .ok p := by
      cases hres : ContentResourceRepository.updContent none n1 id uIn.content uid dbf with
      | ok p => exact ⟨p, rfl⟩
      | error e =>
        cases hcn : uIn.content <;> rw [hcn] at hres <;>
          simp [ContentResourceRepository.updContent, DB.genId, DB.tick, DB.insertVersion,
            DB.updateResourceRow, wstep_none, Except.map] at hres
    have hf : Inv dbf ∧ id < dbf.nextId := by
      rcases updFields_ok_inv none 0 id uIn.fields db n1 dbf heq1 with
        ⟨-, -, rfl⟩ | ⟨f, -, -, rfl⟩
      · exact ⟨hI, hid⟩
      · exact ⟨Inv_mapRow_clock db hI id (db.clock + 1) (by omega) _
          (fun x => ⟨rfl, rfl, fun hh => hh⟩), hid⟩
    have hcInv : Inv dbc ∧ id < dbc.nextId := by
      rcases updContent_ok_inv none n1 id uIn.content uid dbf n2 dbc heq2 with
        ⟨-, -, rfl⟩ | ⟨cc, -, -, rfl⟩
      · exact hf
      · refine ⟨Inv_updContentState dbf hf.1 id hf.2 cc uid, ?_⟩
        show id < dbf.nextId + 1
        have := hf.2
        omega
    have hfailT : ContentResourceRepository.updTags none n2 id uIn.tags dbc =
        .error .pkViolation := by
      rw [hutags]
      have hfail2 : ContentResourceRepository.addTags none (n2 + 1) id ls
          (dbc.deleteLinksFor id) = .error .pkViolation :=
        addTags_fails ls (n2 + 1) id (dbc.deleteLinksFor id)
          (inv_tagCtx _ (Inv_deleteLinksFor dbc hcInv.1 id)) (Or.inl hdup)
      simp only [ContentResourceRepository.updTags, wstep_none, hfail2, Except.map]
    have hbody : ContentResourceRepository.updateBody none id uIn uid db =
        .error .pkViolation := by
      unfold ContentResourceRepository.updateBody
      simp only [hfound, heq1, heq2, hfailT]
    simp only [hbody]

/-- Witness for C10 with the duplicate label list `["x", "x"]`. -/
theorem C10_duplicate_label_aborts_witness :
    ContentResourceRepository.create { cInput with tags := some ["x", "x"] } dbOne =
      (.error .pkViolation, dbOne) ∧
    ContentResourceRepository.update 0
      { fields := none, content := none, tags := some ["x", "x"], state := none } "u1" dbOne =
      (.error .pkViolation, dbOne) := by
  exact C10_duplicate_label_aborts dbOne
    (reachable_inv dbOne (Reachable.create none cInput DB.empty Reachable.init))
    { cInput with tags := some ["x", "x"] } ["x", "x"] rfl (by decide)
    0 { fields := none, content := none, tags := some ["x", "x"], state := none } "u1"
    (dbOne.viewOf rowOne) (by decide) rfl

/-- C1 counterexample: for the spec's own scenario input, `create`
returns the resource row captured at the first insert: its
current-version pointer is still null and no tag labels are embedded,
contradicting the claimed "full denormalized read" with a non-null
pointer. -/
theorem C1_create_return_counterexample :
    (ContentResourceRepository.create cInput DB.empty).1 =
      .ok { id := 0, tipe := "article", createdById := "u1", fields := none,
            currentVersionId := none, state := .draft, createdAt := 0, updatedAt := 0,
            deletedAt := none } := by
  decide

/-- C1 amended: `create` succeeds and returns the raw inserted row — with
non-null id and the given fields (null when omitted) but a still-null
current-version pointer and no embedded tags — while the stored state
does hold the full denormalized read: `findById` on the new id yields the
row with its pointer set to the freshly inserted version (carrying the
given content) and exactly the given tag labels embedded. -/
theorem C1_create_returns_raw_row (db : DB) (hI : Inv db)
    (input : CreateContentResourceInput) (hnd : (input.tags.getD []).Nodup) :
    ∃ db', ContentResourceRepository.create input db = (.ok (createdRow input db), db') ∧
      (createdRow input db).currentVersionId = none ∧
      (createdRow input db).fields = input.fields ∧
      ∃ view, db'.findById (createdRow input db).id = some view ∧
        view.resource.currentVersionId = some (createdVersion input db).id ∧
        view.currentVersion = some (createdVersion input db) ∧
        (createdVersion input db).content = input.content ∧
        view.tags.map (fun p => p.2.label) = input.tags.getD [] := by
  have hmidInv := createMid_Inv input db hI
  obtain ⟨n', db', hadd, hres, hver, hnext, hclock, ⟨ts, htags, hts⟩, ⟨ls, hlinks, hfa⟩, hctx'⟩ :=
    addTags_ok (input.tags.getD []) 3 db.nextId (createMid input db)
      (inv_tagCtx _ hmidInv) hnd (fun lab _ => createMid_fresh input db hI lab)
  have hrun : ContentResourceRepository.create input db =
      (.ok (createdRow input db), db') := by
    have h0 := create_run input db
    simp only [hadd] at h0
    exact h0
  have hI' := hI
  obtain ⟨-, h2, -, -, h5, -, -, -, -, -, -, h12, -⟩ := hI'
  have hres' : db'.resources = db.resources ++
      [{ createdRow input db with currentVersionId := some (db.nextId + 1) }] := by
    rw [hres, createMid_resources input db h2]
  have hfind : db'.findById db.nextId = some (db'.viewOf
      { createdRow input db with currentVersionId := some (db.nextId + 1) }) := by
    unfold DB.findById
    rw [hres', find?_append_of_none _ _ _ (fun x hx => by
      have := h2 x hx
      simp [Nat.ne_of_lt this])]
    simp [List.find?, createdRow]
  refine ⟨db', hrun, rfl, rfl, _, hfind, rfl, ?_, rfl, ?_⟩
  · show ({ createdRow input db with
      currentVersionId := some (db.nextId + 1) } : Resource).currentVersionId.bind
        (fun vid => db'.versions.find? (fun v => v.id == vid)) = _
    show (db'.versions.find? (fun v => v.id == db.nextId + 1)) = _
    have hver' : db'.versions = db.versions ++ [createdVersion input db] := hver
    rw [hver', find?_append_of_none _ _ _ (fun x hx => by
      have := h5 x hx
      have hxid : x.id < db.nextId := by
        obtain ⟨-, -, -, h4, -, -, -, -, -, -, -, -, -⟩ := hI
        exact h4 x hx
      simp
      omega)]
    simp [List.find?, createdVersion]
  · show ((db'.links.filter (fun l => l.resourceId == (createdRow input db).id)).filterMap
      (fun l => (db'.tags.find? (fun t => t.id == l.tagId)).map (fun t => (l, t)))).map
        (fun p => p.2.label) = _
    have hlinks' : db'.links = db.links ++ ls := hlinks
    have hfilter : db'.links.filter (fun l => l.resourceId == (createdRow input db).id) = ls := by
      rw [hlinks', List.filter_append]
      have h0 : db.links.filter (fun l => l.resourceId == (createdRow input db).id) = [] := by
        refine List.filter_eq_nil_iff.mpr (fun l hl => ?_)
        have := (h12 l hl).1
        show ¬(l.resourceId == db.nextId) = true
        simp
        omega
      rw [h0, List.nil_append]
      refine List.filter_eq_self.mpr (fun l hl => ?_)
      obtain ⟨lab, -, hp⟩ := forall2_mem_right hfa l hl
      show (l.resourceId == (createdRow input db).id) = true
      simp [hp.1, createdRow]
    rw [hfilter]
    exact view_tags_labels db' hctx'.tagIds db.nextId (input.tags.getD []) ls hfa

/-- Witness for C1 at the spec's scenario input on an empty store. -/
theorem C1_create_returns_raw_row_witness :
    ∃ db', ContentResourceRepository.create cInput DB.empty =
        (.ok (createdRow cInput DB.empty), db') ∧
      (createdRow cInput DB.empty).currentVersionId = none ∧
      (createdRow cInput DB.empty).fields = cInput.fields ∧
      ∃ view, db'.findById (createdRow cInput DB.empty).id = some view ∧
        view.resource.currentVersionId = some (createdVersion cInput DB.empty).id ∧
        view.currentVersion = some (createdVersion cInput DB.empty) ∧
        (createdVersion cInput DB.empty).content = cInput.content ∧
        view.tags.map (fun p => p.2.label) = cInput.tags.getD [] :=
  C1_create_returns_raw_row DB.empty Inv_empty cInput (by decide)

/-- C8: replacing a resource's tags with `[lb]` (`lb ≠ la`) leaves
exactly one link row for that resource, pointing at a tag labelled `lb`
and at no tag labelled `la`, while every pre-existing tag row — the `la`
one included — survives in the tag table. -/
theorem C8_tag_replace (db : DB) (hI : Inv db) (id : Nat) (la lb : String) (hne : la ≠ lb)
    (uid : String) (view : ResourceView) (hfound : db.findById id = some view)
    (_hta : ∃ l ∈ db.links, l.resourceId = id ∧ ∃ t ∈ db.tags, t.id = l.tagId ∧ t.label = la) :
    ∃ v db', ContentResourceRepository.update id
        { fields := none, content := none, tags := some [lb], state := none } uid db =
        (.ok v, db') ∧
      (db'.links.filter (fun l => l.resourceId == id)).length = 1 ∧
      (∀ l ∈ db'.links, l.resourceId = id → ∃ t ∈ db'.tags, t.id = l.tagId ∧ t.label = lb) ∧
      (∀ l ∈ db'.links, l.resourceId = id → ∀ t ∈ db'.tags, t.id = l.tagId → t.label ≠ la) ∧
      (∀ t ∈ db.tags, t ∈ db'.tags) := by
  have hdctx : TagCtx (db.deleteLinksFor id) := inv_tagCtx _ (Inv_deleteLinksFor db hI id)
  have hfresh : ∀ lab ∈ [lb], ¬ seenLabel (db.deleteLinksFor id) id lab := by
    rintro lab - ⟨l, hl, hlrid, -⟩
    have hmf := List.mem_filter.mp hl
    simp [hlrid] at hmf
  obtain ⟨n', db', hadd, hres, hver, hnext, hclock, ⟨ts, htags, hts⟩, ⟨ls, hlinks, hfa⟩, hctx'⟩ :=
    addTags_ok [lb] 1 id (db.deleteLinksFor id) hdctx (by simp) hfresh
  obtain ⟨nl, lsnil, hnlrid, hnltag⟩ : ∃ nl, ls = [nl] ∧ nl.resourceId = id ∧
      ∃ t ∈ db'.tags, t.id = nl.tagId ∧ t.label = lb := by
    cases hfa with
    | cons h htail =>
      cases htail
      exact ⟨_, rfl, h.1, h.2⟩
  subst lsnil
  have hbody : ContentResourceRepository.updateBody none id
      { fields := none, content := none, tags := some [lb], state := none } uid db =
      .ok (db'.findById id, db') := by
    unfold ContentResourceRepository.updateBody
    simp only [hfound, ContentResourceRepository.updFields,
      ContentResourceRepository.updContent, ContentResourceRepository.updTags, wstep_none,
      hadd, Except.map]
  refine ⟨db'.findById id, db', ?_, ?_, ?_, ?_, ?_⟩
  · unfold ContentResourceRepository.update ContentResourceRepository.updateAt
    simp only [hbody]
  · rw [hlinks, List.filter_append]
    have h0 : (db.deleteLinksFor id).links.filter (fun l => l.resourceId == id) = [] := by
      refine List.filter_eq_nil_iff.mpr (fun l hl => ?_)
      have hmf := List.mem_filter.mp hl
      simpa using hmf.2
    rw [h0]
    simp [hnlrid]
  · intro l hl hlid
    rw [hlinks] at hl
    rcases List.mem_append.mp hl with hl' | hl'
    · exact absurd hlid (by simpa using (List.mem_filter.mp hl').2)
    · simp only [List.mem_singleton] at hl'
      subst hl'
      exact hnltag
  · intro l hl hlid t htm htid
    rw [hlinks] at hl
    rcases List.mem_append.mp hl with hl' | hl'
    · exact absurd hlid (by simpa using (List.mem_filter.mp hl').2)
    · simp only [List.mem_singleton] at hl'
      subst hl'
      obtain ⟨t', ht'm, ht'id, ht'lab⟩ := hnltag
      have hteq : t = t' :=
        List.inj_on_of_nodup_map hctx'.tagIds htm ht'm (by rw [htid, ht'id])
      rw [hteq, ht'lab]
      exact fun hcon => hne hcon.symm
  · intro t ht
    rw [htags]
    exact List.mem_append_left _ ht

/-- Witness for C8: a resource tagged `["a"]` re-tagged to `["b"]`. -/
theorem C8_tag_replace_witness :
    ∃ v db', ContentResourceRepository.update 0
        { fields := none, content := none, tags := some ["b"], state := none } "u1"
        (ContentResourceRepository.create { cInput with tags := some ["a"] } DB.empty).2 =
        (.ok v, db') ∧
      (db'.links.filter (fun l => l.resourceId == 0)).length = 1 ∧
      (∀ l ∈ db'.links, l.resourceId = 0 → ∃ t ∈ db'.tags, t.id = l.tagId ∧ t.label = "b") ∧
      (∀ l ∈ db'.links, l.resourceId = 0 → ∀ t ∈ db'.tags, t.id = l.tagId → t.label ≠ "a") ∧
      (∀ t ∈ (ContentResourceRepository.create { cInput with tags := some ["a"] } DB.empty).2.tags,
        t ∈ db'.tags) := by
  refine C8_tag_replace _
    (reachable_inv _ (Reachable.create none { cInput with tags := some ["a"] } DB.empty
      Reachable.init))
    0 "a" "b" (by decide) "u1"
    ((ContentResourceRepository.create { cInput with tags := some ["a"] } DB.empty).2.viewOf
      { rowOne with currentVersionId := some 1 })
    (by decide) ?_
  exact ⟨⟨0, 2, 3⟩, by decide, by decide, ⟨2, "a", 2⟩, by decide, by decide, by decide⟩

/-- C9: two sequential creates both tagged with a label new to the store
produce exactly one tag row with that label and exactly two link rows
referencing it, one per created resource — the find-or-create resolution
reuses the row created by the first call. -/
theorem C9_idempotent_tag_reuse (db0 : DB) (hI : Inv db0) (L : String)
    (hnew : ∀ t ∈ db0.tags, t.label ≠ L)
    (in1 in2 : CreateContentResourceInput) (r1 r2 : Resource) (db1 db2 : DB)
    (h1 : ContentResourceRepository.create in1 db0 = (.ok r1, db1))
    (h2 : ContentResourceRepository.create in2 db1 = (.ok r2, db2))
    (hL1 : L ∈ in1.tags.getD []) (hL2 : L ∈ in2.tags.getD []) :
    ∃ t, tagsWithLabel db2 L = [t] ∧
      (db2.links.filter (fun l => l.tagId == t.id)).length = 2 ∧
      (∀ l ∈ db2.links, l.tagId = t.id → l.resourceId = r1.id ∨ l.resourceId = r2.id) := by
  obtain ⟨hr1, hnd1, hInv1, -, -, ⟨ts1, htags1, hts1⟩, ⟨ls1, hlinks1, hfa1⟩⟩ :=
    create_ok_strong in1 db0 hI r1 db1 h1
  obtain ⟨hr2, hnd2, hInv2, -, -, ⟨ts2, htags2, hts2⟩, ⟨ls2, hlinks2, hfa2⟩⟩ :=
    create_ok_strong in2 db1 hInv1 r2 db2 h2
  have hctx1 : TagCtx db1 := inv_tagCtx db1 hInv1
  have hctx2 : TagCtx db2 := inv_tagCtx db2 hInv2
  obtain ⟨l1, hl1mem, hp1⟩ := forall2_mem_left hfa1 L hL1
  obtain ⟨tL, htLmem, htLid, htLlab⟩ := hp1.2
  have htLts1 : tL ∈ ts1 := by
    rw [htags1] at htLmem
    rcases List.mem_append.mp htLmem with h | h
    · exact absurd htLlab (hnew tL h)
    · exact h
  have htLmem1 : tL ∈ db1.tags := by
    rw [htags1]
    exact List.mem_append_right _ htLts1
  have htLfresh : db0.nextId ≤ tL.id := (hts1 tL htLts1).2
  have htLmem2 : tL ∈ db2.tags := by
    rw [htags2]
    exact List.mem_append_left _ htLmem1
  have hsingle : tagsWithLabel db2 L = [tL] := by
    unfold tagsWithLabel
    have hf := filter_eq_singleton_of_nodup_map Tag.label db2.tags hctx2.tagLabels tL htLmem2
    rw [htLlab] at hf
    exact hf
  have hq1 : ∀ (lab : String) (l : Link), (l.resourceId = db0.nextId ∧
      ∃ t ∈ db1.tags, t.id = l.tagId ∧ t.label = lab) →
      (l.tagId == tL.id) = (lab == L) := by
    intro lab l hp
    obtain ⟨-, t, htm, htid, htlab⟩ := hp
    by_cases h : lab = L
    · subst h
      have hteq : t = tL :=
        List.inj_on_of_nodup_map hctx1.tagLabels htm htLmem1 (by rw [htlab, htLlab])
      simp [← htid, hteq]
    · have hne2 : l.tagId ≠ tL.id := by
        intro hcon
        have hteq : t = tL :=
          List.inj_on_of_nodup_map hctx1.tagIds htm htLmem1 (by rw [htid, hcon])
        exact h (by rw [← htlab, hteq, htLlab])
      simp [hne2, h]
  have hq2 : ∀ (lab : String) (l : Link), (l.resourceId = db1.nextId ∧
      ∃ t ∈ db2.tags, t.id = l.tagId ∧ t.label = lab) →
      (l.tagId == tL.id) = (lab == L) := by
    intro lab l hp
    obtain ⟨-, t, htm, htid, htlab⟩ := hp
    by_cases h : lab = L
    · subst h
      have hteq : t = tL :=
        List.inj_on_of_nodup_map hctx2.tagLabels htm htLmem2 (by rw [htlab, htLlab])
      simp [← htid, hteq]
    · have hne2 : l.tagId ≠ tL.id := by
        intro hcon
        have hteq : t = tL :=
          List.inj_on_of_nodup_map hctx2.tagIds htm htLmem2 (by rw [htid, hcon])
        exact h (by rw [← htlab, hteq, htLlab])
      simp [hne2, h]
  refine ⟨tL, hsingle, ?_, ?_⟩
  · rw [hlinks2, hlinks1, List.filter_append, List.filter_append, List.length_append,
      List.length_append]
    have h0 : (db0.links.filter (fun l => l.tagId == tL.id)).length = 0 := by
      obtain ⟨-, -, -, -, -, -, -, -, -, -, -, h12, -⟩ := hI
      have : db0.links.filter (fun l => l.tagId == tL.id) = [] := by
        refine List.filter_eq_nil_iff.mpr (fun l hl => ?_)
        have := (h12 l hl).2
        simp
        omega
      rw [this]
      rfl
    have hc1 : (ls1.filter (fun l => l.tagId == tL.id)).length = 1 := by
      rw [forall2_filter_count hfa1 _ (fun lab => lab == L) hq1,
        filter_beq_singleton _ hnd1 L hL1]
      rfl
    have hc2 : (ls2.filter (fun l => l.tagId == tL.id)).length = 1 := by
      rw [forall2_filter_count hfa2 _ (fun lab => lab == L) hq2,
        filter_beq_singleton _ hnd2 L hL2]
      rfl
    rw [h0, hc1, hc2]
  · intro l hl hltid
    rw [hlinks2] at hl
    rcases List.mem_append.mp hl with hl' | hl2
    · rw [hlinks1] at hl'
      rcases List.mem_append.mp hl' with hl0 | hl1'
      · obtain ⟨-, -, -, -, -, -, -, -, -, -, -, h12, -⟩ := hI
        have := (h12 l hl0).2
        omega
      · obtain ⟨lab, -, hp⟩ := forall2_mem_right hfa1 l hl1'
        left
        rw [hr1]
        exact hp.1
    · obtain ⟨lab, -, hp⟩ := forall2_mem_right hfa2 l hl2
      right
      rw [hr2]
      exact hp.1

/-- Witness for C9: two creates tagged `["x", "y"]` and `["x"]` on an
empty store share the single `"x"` tag row. -/
theorem C9_idempotent_tag_reuse_witness :
    ∃ t, tagsWithLabel (ContentResourceRepository.create { cInput with tags := some ["x"] }
        dbOne).2 "x" = [t] ∧
      (((ContentResourceRepository.create { cInput with tags := some ["x"] } dbOne).2.links.filter
        (fun l => l.tagId == t.id)).length = 2) ∧
      (∀ l ∈ (ContentResourceRepository.create { cInput with tags := some ["x"] } dbOne).2.links,
        l.tagId = t.id → l.resourceId = rowOne.id ∨ l.resourceId = 4) := by
  have h := C9_idempotent_tag_reuse DB.empty Inv_empty "x" (by decide)
    cInput { cInput with tags := some ["x"] } { rowOne with currentVersionId := none }
    { id := 4, tipe := "article", createdById := "u1", fields := none,
      currentVersionId := none, state := .draft, createdAt := 6, updatedAt := 6,
      deletedAt := none }
    dbOne (ContentResourceRepository.create { cInput with tags := some ["x"] } dbOne).2
    (by decide) (by decide) (by decide) (by decide)
  exact h

/-- C4: a resource created once and then updated by N successful
content-carrying updates has exactly N+1 versions in `getVersionHistory`,
ordered ascending by creation timestamp, and its current-version pointer
equals the id of the last version created. -/
theorem C4_versioning_append_only (db : DB) (hI : Inv db)
    (input : CreateContentResourceInput) (r : Resource) (db1 : DB)
    (hc : ContentResourceRepository.create input db = (.ok r, db1))
    (ups : List UpdateContentResourceInput) (uid : String) (db2 : DB)
    (hall : ∀ u ∈ ups, u.content.isSome)
    (hap : applyUpdates r.id uid ups db1 = .ok db2) :
    (ContentResourceRepository.getVersionHistory r.id db2).length = ups.length + 1 ∧
    (ContentResourceRepository.getVersionHistory r.id db2).Pairwise
      (fun a b => a.createdAt ≤ b.createdAt) ∧
    ∃ res ∈ db2.resources, res.id = r.id ∧
      res.currentVersionId =
        ((ContentResourceRepository.getVersionHistory r.id db2).getLast?).map Version.id := by
  obtain ⟨-, hT1⟩ := tracked_create input db hI r db1 hc
  obtain ⟨hInv2, hlen, hne, res, hresmem, hresid, -, hresptr⟩ :=
    tracked_applyUpdates r.id uid ups db1 1 hT1 hall db2 hap
  have hsorted : (versionsOf db2 r.id).Pairwise (fun a b => a.createdAt < b.createdAt) := by
    obtain ⟨-, -, -, -, -, -, h7, -, -, -, -, -, -⟩ := hInv2
    exact h7.sublist (List.filter_sublist _)
  have hhist : ContentResourceRepository.getVersionHistory r.id db2 = versionsOf db2 r.id := by
    unfold ContentResourceRepository.getVersionHistory
    exact sortByCreatedAt_eq_self _ (hsorted.imp (fun h => le_of_lt h))
  refine ⟨?_, ?_, res, hresmem, hresid, ?_⟩
  · rw [hhist, hlen]
    omega
  · rw [hhist]
    exact hsorted.imp (fun h => le_of_lt h)
  · rw [hhist]
    exact hresptr

/-- Witness for C4: one create followed by one content update yields two
versions with the pointer on the second. -/
theorem C4_versioning_append_only_witness :
    (ContentResourceRepository.getVersionHistory 0
      (ContentResourceRepository.update 0 uContent "u1" dbOne).2).length = 2 ∧
    (ContentResourceRepository.getVersionHistory 0
      (ContentResourceRepository.update 0 uContent "u1" dbOne).2).Pairwise
      (fun a b => a.createdAt ≤ b.createdAt) ∧
    ∃ res ∈ (ContentResourceRepository.update 0 uContent "u1" dbOne).2.resources,
      res.id = 0 ∧ res.currentVersionId =
        ((ContentResourceRepository.getVersionHistory 0
          (ContentResourceRepository.update 0 uContent "u1" dbOne).2).getLast?).map
          Version.id := by
  have h := C4_versioning_append_only DB.empty Inv_empty cInput
    { rowOne with currentVersionId := none } dbOne (by decide) [uContent] "u1"
    (ContentResourceRepository.update 0 uContent "u1" dbOne).2 (by decide) (by decide)
  exact h

end Store
